import Mathlib

/-!
Shallow embedding of the swagger generator of `ronaksoft/ronycontrib`
(file `swagger/swagger.go`).  Go strings are modelled as lists of
characters so that the generator's string manipulation (`strings.Split`,
`strings.Join`, prefix tests) can be reasoned about directly.  Go maps
are modelled as association lists with overwrite-on-assignment
semantics; the observable content is the key/value function, insertion
order is irrelevant to the generator's output.
-/

set_option maxRecDepth 8000

namespace Ronycontrib


/-- Go strings, modelled as lists of characters. -/
abbrev Str := List Char

/-- Inject a Lean string literal into the `Str` model. -/
def str (s : String) : Str := s.data

/-- `strings.Split(s, sep)` for a one-character separator: the list of
(possibly empty) chunks of `s` between occurrences of `sep`.  On the
empty string Go returns one empty chunk, never the empty list. -/
def goSplit (sep : Char) : Str → List Str
  | [] => [[]]
  | c :: rest =>
    match goSplit sep rest with
    | [] => [[]]
    | g :: gs => if c = sep then [] :: g :: gs else (c :: g) :: gs

/-- `strings.Join(elems, sep)`. -/
def goJoin (sep : Str) : List Str → Str
  | [] => []
  | [s] => s
  | s :: rest => s ++ sep ++ goJoin sep rest

/-- `strings.HasPrefix(s, ":")`. -/
def hasPrefixColon : Str → Bool
  | ':' :: _ => true
  | _ => false

/-- The per-segment step of `replacePath`: a segment passing the
`strings.HasPrefix(p, ":")` test is emitted as `'{' ++ p[1:] ++ '}'`,
all other segments are written unchanged. -/
def replaceSeg (s : Str) : Str :=
  if hasPrefixColon s then '\x7b' :: (s.drop 1 ++ ['\x7d']) else s

/-- `replacePath` from `swagger.go`: split on `'/'`, rewrite each
colon-prefixed segment to a brace-delimited placeholder, and re-join
with `'/'` (the builder writes a `'/'` before every chunk but the
first, i.e. it joins). -/
def replacePath (path : Str) : Str :=
  goJoin ['/'] ((goSplit '/' path).map replaceSeg)

/-- The path-parameter names extracted by `setInput`: every
colon-prefixed segment of the pattern, with the colon stripped
(`strings.TrimPrefix(pp, ":")`). -/
def pathParams (path : Str) : List Str :=
  ((goSplit '/' path).filter hasPrefixColon).map (List.drop 1)

/-! ## The reflected Go type model

`reflect.Type` values form a graph (a struct field may refer back to
its own struct type), so struct types are represented by a numeric
identity and resolved through a type environment, mirroring how
distinct `reflect.Type` identities can share the same display name. -/

/-- The Go type kinds the generator inspects.  `structRef` holds a type
identity resolved via a `TypeEnv`; `unsupported` stands for any other
kind (map, chan, func, ...), carrying `reflect.Kind.String()`. -/
inductive GoType where
  | string
  | int8
  | uint8
  | int32
  | uint32
  | int
  | uint
  | int64
  | uint64
  | float32
  | float64
  | bool
  | iface
  | ptr (elem : GoType)
  | slice (elem : GoType)
  | structRef (id : Nat)
  | unsupported (kindName : Str)
deriving DecidableEq, Repr

/-- A struct field as the generator sees it: the value of the
configured struct tag (empty when the tag is absent) and the field's
type. -/
structure GoField where
  tag : Str
  type : GoType
deriving DecidableEq, Repr

/-- A named struct type: `reflect.Type.Name()` and the field list. -/
structure GoStruct where
  name : Str
  fields : List GoField
deriving DecidableEq, Repr

/-- Resolves struct type identities to their definitions. -/
abbrev TypeEnv := List (Nat × GoStruct)

/-! ## Association-list maps (Go map semantics: overwrite on assign) -/

/-- Map lookup. -/
def lookupA {α β : Type} [DecidableEq α] : List (α × β) → α → Option β
  | [], _ => none
  | (k, v) :: rest, a => if k = a then some v else lookupA rest a

/-- Map assignment `m[k] = v`: overwrite the entry when the key is
present, insert it otherwise. -/
def setA {α β : Type} [DecidableEq α] (m : List (α × β)) (k : α) (v : β) :
    List (α × β) :=
  if m.any (fun p => p.1 = k) then
    m.map (fun p => if p.1 = k then (k, v) else p)
  else m ++ [(k, v)]

/-- The number of entries stored under key `k`. -/
def countKey {α β : Type} [DecidableEq α] (m : List (α × β)) (k : α) : Nat :=
  (m.filter (fun p => decide (p.1 = k))).length

def lookupEnv (env : TypeEnv) (id : Nat) : Option GoStruct := lookupA env id

/-- `reflect.Indirect` / the generator's explicit one-level pointer
unwrap at the entry of `setInput` and `addDefinition`. -/
def indirect : GoType → GoType
  | .ptr t => t
  | t => t

/-- The `goto Switch` pointer-chasing loop of `addDefinition`:
repeatedly take `Elem()` while the kind is `Ptr`. -/
def stripPtrs : GoType → GoType
  | .ptr t => stripPtrs t
  | t => t

/-- `reflect.Type.Name()`.  Predeclared Go types carry their spelling,
struct identities resolve through the environment, and unnamed
composite types (pointers, slices, interfaces) have an empty name. -/
def typeName (env : TypeEnv) : GoType → Str
  | .string => str "string"
  | .int8 => str "int8"
  | .uint8 => str "uint8"
  | .int32 => str "int32"
  | .uint32 => str "uint32"
  | .int => str "int"
  | .uint => str "uint"
  | .int64 => str "int64"
  | .uint64 => str "uint64"
  | .float32 => str "float32"
  | .float64 => str "float64"
  | .bool => str "bool"
  | .iface => []
  | .ptr _ => []
  | .slice _ => []
  | .structRef id => ((lookupEnv env id).map GoStruct.name).getD []
  | .unsupported _ => []

/-- `reflect.Kind.String()` for the kinds `setParameter` names. -/
def kindString : GoType → Str
  | .string => str "string"
  | .int8 => str "int8"
  | .uint8 => str "uint8"
  | .int32 => str "int32"
  | .uint32 => str "uint32"
  | .int => str "int"
  | .uint => str "uint"
  | .int64 => str "int64"
  | .uint64 => str "uint64"
  | .float32 => str "float32"
  | .float64 => str "float64"
  | .bool => str "bool"
  | .iface => str "interface"
  | .ptr _ => str "ptr"
  | .slice _ => str "slice"
  | .structRef _ => str "struct"
  | .unsupported k => k

/-- The fields of a struct type (`NumField`/`Field(i)` iteration).
Go would panic on a non-struct kind; the generator only reaches this
with struct types, and the model returns no fields there. -/
def structFields (env : TypeEnv) : GoType → List GoField
  | .structRef id =>
    match lookupEnv env id with
    | some st => st.fields
    | none => []
  | _ => []

/-! ## Schemas (the `go-openapi/spec` values the generator builds) -/

/-- The property/reference schema shapes the generator produces: a
primitive with a type and format (`StringProperty`, `Int8Property`,
...), a `$ref`, an array wrapper (`ArrayProperty`), or the inline
empty object emitted for interface-typed fields.  (go-openapi has a
single `Schema` type; the generator only ever constructs these shapes
in property and reference positions, and object-with-properties
schemas only as top-level definitions, modelled by `DefSchema`.) -/
inductive PropSchema where
  | prim (type : Str) (format : Str)
  | ref (target : Str)
  | array (items : PropSchema)
  | emptyObj
deriving DecidableEq, Repr

/-- A named schema definition: `def.Typed("object", "")` with the
properties set by `SetProperty` (a map; overwrite on reassignment). -/
structure DefSchema where
  props : List (Str × PropSchema)
deriving DecidableEq, Repr

/-- `spec.RefProperty("#/definitions/<name>")`. -/
def refDef (name : Str) : PropSchema := .ref (str "#/definitions/" ++ name)

/-- The document-wide definitions map, keyed by bare type name. -/
abbrev Defs := List (Str × DefSchema)

/-! ## Parameters -/

/-- A `spec.Parameter` as the generator fills it in: name, location
(`in`), the required/allowEmptyValue flags, the wire type/format set by
`setParameter`, and the body schema for `spec.BodyParam`. -/
structure Param where
  name : Str
  loc : Str
  required : Bool
  allowEmptyValue : Bool
  type : Str
  format : Str
  schema : Option PropSchema
deriving DecidableEq, Repr

/-- `spec.PathParam(name)` (the constructor already sets `Required`). -/
def pathParam (n : Str) : Param :=
  { name := n, loc := str "path", required := true, allowEmptyValue := false,
    type := [], format := [], schema := none }

/-- `spec.QueryParam(name)`. -/
def queryParam (n : Str) : Param :=
  { name := n, loc := str "query", required := false, allowEmptyValue := false,
    type := [], format := [], schema := none }

/-- `spec.BodyParam(name, schema)`. -/
def bodyParam (n : Str) (s : PropSchema) : Param :=
  { name := n, loc := str "body", required := false, allowEmptyValue := false,
    type := [], format := [], schema := some s }

/-- `Parameter.AsRequired()`. -/
def asRequired (p : Param) : Param := { p with required := true }

/-- `Parameter.NoEmptyValues()`. -/
def noEmptyValues (p : Param) : Param := { p with allowEmptyValue := false }

/-- `Parameter.Typed(type, format)`. -/
def typed (p : Param) (t f : Str) : Param := { p with type := t, format := f }

/-- `setParameter` from `swagger.go`: resolve the wire type/format from
the field's kind; `none` models the `nil` return for unsupported kinds
(the caller's `AddParam(nil)` then drops the parameter silently). -/
def setParameter (p : Param) (t : GoType) : Option Param :=
  match t with
  | .slice elem =>
    match elem with
    | .string => some (typed p (str "string") (kindString t))
    | .float64 => some (typed p (str "number") (kindString t))
    | .float32 => some (typed p (str "number") (kindString t))
    | .int8 => some (typed p (str "integer") (str "int8"))
    | .uint8 => some (typed p (str "integer") (str "int8"))
    | .int32 => some (typed p (str "integer") (str "int32"))
    | .uint32 => some (typed p (str "integer") (str "int32"))
    | .int => some (typed p (str "integer") (str "int64"))
    | .int64 => some (typed p (str "integer") (str "int64"))
    | .uint => some (typed p (str "integer") (str "int64"))
    | .uint64 => some (typed p (str "integer") (str "int64"))
    | _ => none
  | .string => some (typed p (str "string") (kindString t))
  | .float64 => some (typed p (str "number") (kindString t))
  | .float32 => some (typed p (str "number") (kindString t))
  | .int8 => some (typed p (str "integer") (str "int8"))
  | .uint8 => some (typed p (str "integer") (str "int8"))
  | .int32 => some (typed p (str "integer") (str "int32"))
  | .uint32 => some (typed p (str "integer") (str "int32"))
  | .int => some (typed p (str "integer") (str "int64"))
  | .int64 => some (typed p (str "integer") (str "int64"))
  | .uint => some (typed p (str "integer") (str "int64"))
  | .uint64 => some (typed p (str "integer") (str "int64"))
  | _ => none

/-! ## Operations and responses -/

/-- A response entry: description and optional schema reference. -/
structure Response where
  description : Str
  schema : Option PropSchema
deriving DecidableEq, Repr

/-- A `spec.Operation` as the generator fills it in. -/
structure Op where
  id : Str
  tags : List Str
  consumes : List Str
  produces : List Str
  parameters : List Param
  responses : List (Int × Response)
deriving DecidableEq, Repr

/-- `Operation.AddParam`: a `nil` argument is ignored; otherwise the
parameter replaces an existing one with the same name and location, or
is appended.  (Construction through `addParam` keeps at most one entry
per name/location pair, so replacing every match equals replacing the
first.) -/
def Op.addParam (o : Op) (p : Option Param) : Op :=
  match p with
  | none => o
  | some p =>
    if o.parameters.any (fun q => q.name = p.name ∧ q.loc = p.loc) then
      { o with parameters :=
          o.parameters.map (fun q =>
            if q.name = p.name ∧ q.loc = p.loc then p else q) }
    else { o with parameters := o.parameters ++ [p] }

/-- `Operation.RespondsWith(code, response)`: map assignment into the
status-code response map. -/
def Op.respondsWith (o : Op) (code : Int) (r : Response) : Op :=
  { o with responses := setA o.responses code r }

/-! ## The parameter classifier (`setInput`) -/

/-- The per-field work of `setInput`: skip fields with an empty tag
name, classify by membership of the (verbatim) tag name in the
pattern's path parameters, mark required/no-empty, and resolve the
wire type via `setParameter`. -/
def classifyField (pps : List Str) (fld : GoField) : Option Param :=
  if fld.tag = [] then none
  else if fld.tag ∈ pps then
    setParameter (noEmptyValues (asRequired (pathParam fld.tag))) fld.type
  else
    setParameter (noEmptyValues (asRequired (queryParam fld.tag))) fld.type

/-- `setInput` from `swagger.go`: unwrap one pointer level, extract the
pattern's path-parameter names, and add one classified parameter per
tagged field to the operation. -/
def setInput (env : TypeEnv) (op : Op) (path : Str) (inType : GoType) : Op :=
  let t := indirect inType
  let pps := pathParams path
  (structFields env t).foldl (fun o fld => o.addParam (classifyField pps fld)) op

/-! ## The schema definition builder (`addDefinition`) -/

/-- `unicode.IsSpace` on the code points of Unicode `White_Space`
(the set `strings.TrimSpace` strips). -/
def isGoSpace (c : Char) : Bool :=
  c = ' ' ∨ c = '\t' ∨ c = '\n' ∨ c = '\u000B' ∨ c = '\u000C' ∨ c = '\r' ∨
  c = '\u0085' ∨ c = '\u00A0' ∨ c = '\u1680' ∨
  c = '\u2000' ∨ c = '\u2001' ∨ c = '\u2002' ∨ c = '\u2003' ∨ c = '\u2004' ∨
  c = '\u2005' ∨ c = '\u2006' ∨ c = '\u2007' ∨ c = '\u2008' ∨ c = '\u2009' ∨
  c = '\u200A' ∨ c = '\u2028' ∨ c = '\u2029' ∨ c = '\u202F' ∨ c = '\u205F' ∨
  c = '\u3000'

/-- `strings.TrimSpace`. -/
def goTrimSpace (s : Str) : Str :=
  ((s.dropWhile isGoSpace).reverse.dropWhile isGoSpace).reverse

/-- The "hack to remove omitempty from tags": split the tag value on
`','`; when there is more than one part, the exposed property name is
the trimmed first part, otherwise the tag value is used verbatim. -/
def tagBaseName (tag : Str) : Str :=
  match goSplit ',' tag with
  | [] => tag
  | [_] => tag
  | p :: _ :: _ => goTrimSpace p

/-- The wrapping mode chosen by the first `switch` on the field's kind:
a pointer unwraps one level and wraps the dispatched schema unchanged,
a slice unwraps to its element and wraps it as an array, anything else
is passed through. -/
def outerUnwrap : GoType → GoType × (PropSchema → PropSchema)
  | .ptr t => (t, fun s => s)
  | .slice t => (t, fun s => .array s)
  | t => (t, fun s => s)

/-- The labelled `Switch` dispatch of `addDefinition`, parameterised by
the recursive registration of nested struct types (`recur`, the
`sg.addDefinition(swag, fType)` call).  The `ptr` case models the
`goto Switch` loop; the `slice` and `unsupported` cases fall into the
`default` branch, which prints the kind and falls back to a string
schema (the diagnostic print is not modelled). -/
def dispatchSchema (recur : Defs → GoType → Option Defs) (env : TypeEnv)
    (defs : Defs) : GoType → Option (PropSchema × Defs)
  | .string => some (.prim (str "string") [], defs)
  | .int8 => some (.array (.prim (str "integer") (str "int8")), defs)
  | .uint8 => some (.array (.prim (str "integer") (str "int8")), defs)
  | .int32 => some (.prim (str "integer") (str "int32"), defs)
  | .uint32 => some (.prim (str "integer") (str "int32"), defs)
  | .int => some (.prim (str "integer") (str "int64"), defs)
  | .uint => some (.prim (str "integer") (str "int64"), defs)
  | .int64 => some (.prim (str "integer") (str "int64"), defs)
  | .uint64 => some (.prim (str "integer") (str "int64"), defs)
  | .float32 => some (.prim (str "number") (str "float"), defs)
  | .float64 => some (.prim (str "number") (str "double"), defs)
  | .structRef id =>
    match recur defs (.structRef id) with
    | none => none
    | some defs => some (refDef (typeName env (.structRef id)), defs)
  | .bool => some (.prim (str "boolean") [], defs)
  | .iface => some (.emptyObj, defs)
  | .ptr t => dispatchSchema recur env defs t
  | .slice _ => some (.prim (str "string") [], defs)
  | .unsupported _ => some (.prim (str "string") [], defs)

/-- The per-field body of `addDefinition`'s loop: skip untagged fields,
strip tag modifiers, pick the wrapping mode, dispatch the element kind
(registering nested structs through `recur`), and set the wrapped
schema as the named property.  `none` propagates a diverging recursive
registration. -/
def defField (recur : Defs → GoType → Option Defs) (env : TypeEnv)
    (acc : Option (List (Str × PropSchema) × Defs)) (fld : GoField) :
    Option (List (Str × PropSchema) × Defs) :=
  match acc with
  | none => none
  | some (props, defs) =>
    if fld.tag = [] then some (props, defs)
    else
      let fName := tagBaseName fld.tag
      let uw := outerUnwrap fld.type
      match dispatchSchema recur env defs uw.1 with
      | none => none
      | some (s, defs) => some (setA props fName (uw.2 s), defs)

/-- `addDefinition` from `swagger.go`.  The Go function recurses into
nested struct fields with no cycle guard; the model spends one unit of
fuel per nesting level, and `none` (fuel exhaustion at every fuel
value) models the unbounded recursion on cyclic type graphs.  On
success the built definition is stored under the bare type name. -/
def addDefinition : Nat → TypeEnv → Defs → GoType → Option Defs
  | 0, _, _, _ => none
  | fuel + 1, env, defs, rType0 =>
    let rType := indirect rType0
    match (structFields env rType).foldl
        (defField (fun d t => addDefinition fuel env d t) env)
        (some ([], defs)) with
    | none => none
    | some (props, defs1) =>
      some (setA defs1 (typeName env rType) ⟨props⟩)

/-! ## Contracts, services, the document, and the operation builder -/

/-- One `desc.PossibleError` entry: status code, item label, and the
error-payload type handle (`pe.Message`). -/
structure PossibleError where
  code : Int
  item : Str
  message : GoType
deriving DecidableEq, Repr

/-- A route selector: the REST shape exposes an HTTP method and a path
pattern (`ronykit.RESTRouteSelector`); any other selector fails the
type assertion and is skipped. -/
inductive Sel where
  | rest (method : Str) (path : Str)
  | other
deriving DecidableEq, Repr

/-- A `desc.Contract`: operation name, input/output type handles,
declared possible errors, and route selectors. -/
structure Contract where
  name : Str
  input : GoType
  output : GoType
  possibleErrors : List PossibleError
  selectors : List Sel
deriving DecidableEq, Repr

/-- A `desc.Service`: name and contracts. -/
structure Service where
  name : Str
  contracts : List Contract
deriving DecidableEq, Repr

/-- A `spec.PathItem`: one optional operation slot per HTTP method the
generator registers. -/
structure PathItem where
  get : Option Op := none
  put : Option Op := none
  post : Option Op := none
  delete : Option Op := none
  patch : Option Op := none
deriving DecidableEq, Repr

/-- The `spec.Swagger` document as the generator fills it in. -/
structure Doc where
  swaggerVersion : Str
  title : Str
  version : Str
  description : Str
  schemes : List Str
  tags : List Str
  paths : List (Str × PathItem)
  definitions : Defs
deriving DecidableEq, Repr

/-- `NewSwagger(title, ver, desc)`: the info block, the fixed schemes,
and the "2.0" version string; everything else starts empty. -/
def newSwagger (title ver desc : Str) : Doc :=
  { swaggerVersion := str "2.0", title := title, version := ver,
    description := desc, schemes := [str "http", str "https"],
    tags := [], paths := [], definitions := [] }

/-- `addTag`: append a tag named after the service. -/
def addTag (doc : Doc) (s : Service) : Doc :=
  { doc with tags := doc.tags ++ [s.name] }

/-- `strings.ToUpper` restricted to ASCII letters (HTTP method strings
are ASCII; the non-ASCII part of Go's Unicode case mapping is not
modelled). -/
def asciiUpper (c : Char) : Char :=
  if 'a' ≤ c ∧ c ≤ 'z' then Char.ofNat (c.toNat - 32) else c

def goToUpper (s : Str) : Str := s.map asciiUpper

/-- The methods whose `switch` branch attaches a request-body
parameter (`http.MethodPost`, `http.MethodPut`, `http.MethodPatch`). -/
def isBodyMethod (m : Str) : Bool :=
  m = str "POST" ∨ m = str "PUT" ∨ m = str "PATCH"

/-- `spec.NewOperation(opID)` followed by the builder chain in
`addOperation`: a 200 response referencing the output type's
definition, the service tag, and the JSON content types. -/
def initOp (serviceName : Str) (opID : Str) (outName : Str) : Op :=
  { id := opID, tags := [serviceName],
    consumes := [str "application/json"],
    produces := [str "application/json"],
    parameters := [],
    responses := [((200 : Int), ⟨[], some (refDef outName)⟩)] }

/-- One iteration of the possible-errors loop, operation side: append
the item label to the per-code list and overwrite the response for that
code with a description joining every label collected so far and a
reference to this entry's error-payload type. -/
def peStep (env : TypeEnv) (acc : List (Int × List Str) × Op)
    (pe : PossibleError) : List (Int × List Str) × Op :=
  let errName := typeName env (indirect pe.message)
  let items := ((lookupA acc.1 pe.code).getD []) ++ [pe.item]
  let m := setA acc.1 pe.code items
  let op := acc.2.respondsWith pe.code
    ⟨str "Items: " ++ goJoin (str ", ") items, some (refDef errName)⟩
  (m, op)

/-- The operation-side effect of the whole possible-errors loop. -/
def peOps (env : TypeEnv) (pes : List PossibleError) (op : Op) : Op :=
  (pes.foldl (peStep env) ([], op)).2

/-- The definitions-side effect of the possible-errors loop: register
each error-payload type (`sg.addDefinition(swag, errType)`). -/
def peDefs (fuel : Nat) (env : TypeEnv) (pes : List PossibleError)
    (defs : Defs) : Option Defs :=
  pes.foldl (fun acc pe =>
    match acc with
    | none => none
    | some defs => addDefinition fuel env defs (indirect pe.message)) (some defs)

/-- One iteration of the selector loop, operation side: non-REST
selectors are skipped; a REST selector runs `setInput` and, when the
upper-cased method is POST, PUT, or PATCH, adds the request-body
parameter referencing the input type's definition. -/
def selStep (env : TypeEnv) (inT : GoType) (op : Op) : Sel → Op
  | .other => op
  | .rest method path =>
    let op := setInput env op path inT
    if isBodyMethod (goToUpper method) then
      op.addParam (some (bodyParam (typeName env inT) (refDef (typeName env inT))))
    else op

/-- The operation-side effect of the whole selector loop. -/
def selOps (env : TypeEnv) (inT : GoType) (sels : List Sel) (op : Op) : Op :=
  sels.foldl (selStep env inT) op

/-- The definitions-side effect of the selector loop: register the
input and output types once per REST selector. -/
def selDefs (fuel : Nat) (env : TypeEnv) (inT outT : GoType)
    (sels : List Sel) (defs : Defs) : Option Defs :=
  sels.foldl (fun acc sel =>
    match acc, sel with
    | none, _ => none
    | some defs, .other => some defs
    | some defs, .rest _ _ =>
      match addDefinition fuel env defs inT with
      | none => none
      | some defs => addDefinition fuel env defs outT) (some defs)

/-- The method `switch` that stores the operation in a path-item slot;
methods other than the five named ones leave the item unchanged (but
the item is still written back, creating an empty entry). -/
def setSlot (pi : PathItem) (m : Str) (op : Op) : PathItem :=
  if m = str "GET" then { pi with get := some op }
  else if m = str "DELETE" then { pi with delete := some op }
  else if m = str "POST" then { pi with post := some op }
  else if m = str "PUT" then { pi with put := some op }
  else if m = str "PATCH" then { pi with patch := some op }
  else pi

/-- The path-registration effect of the selector loop: for each REST
selector, read the path item at the rewritten path (zero value when
absent), set the method's slot to the contract's operation, and write
the item back. -/
def registerPaths (sels : List Sel) (op : Op) (paths : List (Str × PathItem)) :
    List (Str × PathItem) :=
  sels.foldl (fun ps sel =>
    match sel with
    | .other => ps
    | .rest method path =>
      let restPath := replacePath path
      let pi := (lookupA ps restPath).getD {}
      setA ps restPath (setSlot pi (goToUpper method) op)) paths

/-- `addOperation` from `swagger.go`.  Go allocates one heap operation
per contract and stores a pointer to it in every path-item slot it
registers, so the document serializes the operation's final state;
the model computes the final operation value first and then performs
the path registrations with it.  The loops' operation-side and
definitions-side effects are independent (the operation never reads
the definitions map and vice versa), so they are modelled as separate
folds in the source's order. -/
def addOperation (fuel : Nat) (env : TypeEnv) (doc : Doc)
    (serviceName : Str) (c : Contract) : Option Doc :=
  let inT := indirect c.input
  let outT := indirect c.output
  let op0 := initOp serviceName c.name (typeName env outT)
  let op1 := peOps env c.possibleErrors op0
  let opF := selOps env inT c.selectors op1
  match peDefs fuel env c.possibleErrors doc.definitions with
  | none => none
  | some defs =>
    match selDefs fuel env inT outT c.selectors defs with
    | none => none
    | some defs =>
      some { doc with definitions := defs,
                      paths := registerPaths c.selectors opF doc.paths }

/-- The per-service contract loop of `WriteTo`: fold `addOperation`
over the contracts, propagating a diverging run. -/
def contractsFold (fuel : Nat) (env : TypeEnv) (sn : Str)
    (cs : List Contract) (acc : Option Doc) : Option Doc :=
  cs.foldl (fun acc c => acc.bind (fun doc => addOperation fuel env doc sn c)) acc

/-- The service/contract iteration of `WriteTo`: per service, register
the tag and fold `addOperation` over the contracts.  `none` models a
run that never terminates (unbounded schema recursion). -/
def assembleDoc (fuel : Nat) (env : TypeEnv) (doc0 : Doc)
    (services : List Service) : Option Doc :=
  services.foldl (fun acc s =>
    contractsFold fuel env s.name s.contracts
      (acc.map (fun doc => addTag doc s)))
    (some doc0)

/-- `WriteTo`: assemble the document, then `MarshalJSON`, then a single
`w.Write` of the encoded bytes.  `marshal` and `write` abstract the
encoder and the destination; the second component of the result is the
trace of payloads handed to the destination.  A `none` first component
models a run that never reaches the write (unbounded recursion). -/
def writeToRun {ε β : Type} (fuel : Nat) (env : TypeEnv)
    (marshal : Doc → Except ε β) (write : β → Except ε Unit)
    (doc0 : Doc) (services : List Service) :
    Option (Except ε Unit) × List β :=
  match assembleDoc fuel env doc0 services with
  | none => (none, [])
  | some doc =>
    match marshal doc with
    | .error e => (some (.error e), [])
    | .ok bs => (some (write bs), [bs])

/-- `WriteToFile`: `os.Create` first (its failure aborts before any
processing), then `WriteTo` on the created file. -/
def writeToFileRun {ε β : Type} (fuel : Nat) (env : TypeEnv)
    (create : Except ε Unit)
    (marshal : Doc → Except ε β) (write : β → Except ε Unit)
    (doc0 : Doc) (services : List Service) :
    Option (Except ε Unit) × List β :=
  match create with
  | .error e => (some (.error e), [])
  | .ok _ => writeToRun fuel env marshal write doc0 services

/-- Example environment: two distinct parent structs `P1`, `P2` both
holding a tagged field of the nested struct type `T`. -/
def envTwoParents : TypeEnv :=
  [(0, ⟨str "P1", [⟨str "t", .structRef 2⟩]⟩),
   (1, ⟨str "P2", [⟨str "t", .structRef 2⟩]⟩),
   (2, ⟨str "T", [⟨str "s", .string⟩]⟩)]

/-- Example environment: two distinct struct types that share the
display name `S` (as distinct Go packages can). -/
def envShadow : TypeEnv :=
  [(0, ⟨str "S", [⟨str "a", .string⟩]⟩),
   (1, ⟨str "S", [⟨str "b", .int64⟩]⟩)]

/-! ## C2: byte-buffer fields in the definition builder -/

/-- Example environment: a struct with one `[]byte`-like field. -/
def envByteBuf : TypeEnv :=
  [(0, ⟨str "Buf", [⟨str "b", .slice .uint8⟩]⟩)]

/-! ## C1: the parameter classifier -/

/-- The field kinds `setParameter` can type: strings, floats, integers,
and slices of those; everything else makes it return `nil`. -/
def paramSupported : GoType → Bool
  | .string => true
  | .float32 => true
  | .float64 => true
  | .int8 => true
  | .uint8 => true
  | .int32 => true
  | .uint32 => true
  | .int => true
  | .uint => true
  | .int64 => true
  | .uint64 => true
  | .slice e =>
    match e with
    | .string => true
    | .float32 => true
    | .float64 => true
    | .int8 => true
    | .uint8 => true
    | .int32 => true
    | .uint32 => true
    | .int => true
    | .uint => true
    | .int64 => true
    | .uint64 => true
    | _ => false
  | _ => false

/-- Example environment: an input struct with one tagged field of an
unsupported parameter kind (`bool`). -/
def envBoolField : TypeEnv := [(0, ⟨str "In", [⟨str "b", .bool⟩]⟩)]

/-! ## C10: tag modifiers -/

/-- Example environment: an input struct whose field tag carries a
comma-separated modifier (`x,omitempty`). -/
def envModTag : TypeEnv :=
  [(0, ⟨str "M", [⟨str "x,omitempty", .string⟩]⟩)]

/-! ## C3: recursion behaviour of `addDefinition` -/

/-- Example environment: a self-referential struct (`A` has a tagged
field of its own struct type). -/
def envSelfRef : TypeEnv := [(0, ⟨str "A", [⟨str "a", .structRef 0⟩]⟩)]

/-- The struct identity (if any) into which processing a field of this
type makes `addDefinition` recurse: one level of pointer/slice unwrap
(the wrapping-mode switch) followed by the `goto`-loop pointer chase,
landing on a struct kind. -/
def recTarget (t : GoType) : Option Nat :=
  match stripPtrs (outerUnwrap t).1 with
  | .structRef id => some id
  | _ => none

/-- An acyclicity certificate for the nested-struct graph of an
environment: a rank function that strictly decreases along every
field-recursion edge. -/
def envRanked (env : TypeEnv) (rank : Nat → Nat) : Prop :=
  ∀ p ∈ env, ∀ f ∈ p.2.fields, ∀ id ∈ (recTarget f.type).toList,
    rank id < rank p.1

/-- A recursion-depth budget sufficient for `addDefinition` on a type
whose reachable nested-struct graph is ranked. -/
def entryFuel (rank : Nat → Nat) (t : GoType) : Nat :=
  match indirect t with
  | .structRef id => rank id + 1
  | _ => 1

/-- Example environment with an acyclic nesting: `P` contains `T`. -/
def envAcyclic : TypeEnv :=
  [(0, ⟨str "P", [⟨str "t", .structRef 1⟩]⟩),
   (1, ⟨str "T", [⟨str "s", .string⟩]⟩)]

/-! ## C8: merging of possible-error responses -/

/-- The item labels of the possible-error entries declared with status
code `k`, in declaration order. -/
def itemsFor (pes : List PossibleError) (k : Int) : List Str :=
  (pes.filter (fun pe => pe.code = k)).map PossibleError.item

/-! ## C7: request-body parameters -/

/-- Whether the operation carries a request-body parameter. -/
def hasBodyParam (o : Op) : Bool :=
  o.parameters.any (fun p => p.loc = str "body")

/-- The operations stored in a path item's method slots. -/
def slotOps (pi : PathItem) : List Op :=
  pi.get.toList ++ pi.put.toList ++ pi.post.toList ++
    pi.delete.toList ++ pi.patch.toList

/-- The operations registered in the paths map at a given path. -/
def opsAt (paths : List (Str × PathItem)) (p : Str) : List Op :=
  match lookupA paths p with
  | none => []
  | some pi => slotOps pi

/-- Whether some REST selector's upper-cased method is POST, PUT, or
PATCH. -/
def hasBodySel (sels : List Sel) : Bool :=
  sels.any (fun sel =>
    match sel with
    | .rest m _ => isBodyMethod (goToUpper m)
    | .other => false)

/-- Example environment and contract for the request-body aliasing:
one contract carrying both a GET selector (on `/b`) and a POST
selector (on `/a`). -/
def envC7 : TypeEnv :=
  [(0, ⟨str "In", [⟨str "x", .string⟩]⟩), (1, ⟨str "Out", []⟩)]

def contractC7 : Contract :=
  ⟨str "op", .structRef 0, .structRef 1, [],
   [.rest (str "GET") (str "/b"), .rest (str "POST") (str "/a")]⟩

/-- Example environment mirroring the repository's test type
`subRes`: a byte-slice field among other fields. -/
def envSubRes : TypeEnv :=
  [(0, ⟨str "subRes", [⟨str "some", .string⟩, ⟨str "another", .slice .uint8⟩]⟩)]

/-! ## Theorems -/

theorem goSplit_ne_nil (sep : Char) (s : Str) : goSplit sep s ≠ [] := by
  cases s with
  | nil => simp [goSplit]
  | cons c rest =>
    simp only [goSplit]
    cases h : goSplit sep rest with
    | nil => simp
    | cons g gs => by_cases hc : c = sep <;> simp [hc]

theorem goSplit_eq_cons (sep : Char) (s : Str) :
    ∃ g gs, goSplit sep s = g :: gs := by
  cases h : goSplit sep s with
  | nil => exact absurd h (goSplit_ne_nil sep s)
  | cons g gs => exact ⟨g, gs, rfl⟩

theorem not_mem_of_mem_goSplit (sep : Char) (s : Str) :
    ∀ x ∈ goSplit sep s, sep ∉ x := by
  induction s with
  | nil => intro x hx; simp [goSplit] at hx; simp [hx]
  | cons c rest ih =>
    obtain ⟨g, gs, hgs⟩ := goSplit_eq_cons sep rest
    intro x hx
    simp only [goSplit, hgs] at hx
    by_cases hc : c = sep
    · simp only [hc, if_pos rfl] at hx
      rcases List.mem_cons.mp hx with hx | hx
      · simp [hx]
      · exact ih x (hgs ▸ hx)
    · simp only [if_neg hc] at hx
      rcases List.mem_cons.mp hx with hx | hx
      · subst hx
        intro hmem
        rcases List.mem_cons.mp hmem with h1 | h1
        · exact hc h1.symm
        · exact ih g (hgs ▸ List.mem_cons_self g gs) h1
      · exact ih x (hgs ▸ List.mem_cons_of_mem g hx)

theorem goSplit_of_not_mem {sep : Char} {s : Str} (h : sep ∉ s) :
    goSplit sep s = [s] := by
  induction s with
  | nil => simp [goSplit]
  | cons c rest ih =>
    have hc : ¬ c = sep := fun hh => h (hh ▸ List.mem_cons_self c rest)
    have hrest : sep ∉ rest := fun hh => h (List.mem_cons_of_mem c hh)
    simp [goSplit, ih hrest, if_neg hc]

theorem goSplit_append_cons {sep : Char} {x : Str} (h : sep ∉ x) (t : Str) :
    goSplit sep (x ++ sep :: t) = x :: goSplit sep t := by
  induction x with
  | nil =>
    obtain ⟨g, gs, hgs⟩ := goSplit_eq_cons sep t
    simp [goSplit, hgs]
  | cons c x' ih =>
    have hc : ¬ c = sep := fun hh => h (hh ▸ List.mem_cons_self c x')
    have hx' : sep ∉ x' := fun hh => h (List.mem_cons_of_mem c hh)
    rw [List.cons_append, goSplit, ih hx']
    simp [if_neg hc]

theorem goSplit_goJoin {sep : Char} :
    ∀ l : List Str, l ≠ [] → (∀ x ∈ l, sep ∉ x) →
      goSplit sep (goJoin [sep] l) = l := by
  intro l
  induction l with
  | nil => intro h; exact absurd rfl h
  | cons x rest ih =>
    intro _ hall
    cases rest with
    | nil => simpa [goJoin] using goSplit_of_not_mem (hall x (by simp))
    | cons y rest' =>
      have hx : sep ∉ x := hall x (by simp)
      have hjoin : goJoin [sep] (x :: y :: rest') = x ++ sep :: goJoin [sep] (y :: rest') := by
        simp [goJoin]
      rw [hjoin, goSplit_append_cons hx]
      rw [ih (by simp) (fun z hz => hall z (List.mem_cons_of_mem x hz))]

theorem slash_not_mem_replaceSeg {s : Str} (h : '/' ∉ s) : '/' ∉ replaceSeg s := by
  unfold replaceSeg
  split
  · intro hmem
    rcases List.mem_cons.mp hmem with h1 | h1
    · exact absurd h1 (by decide)
    · rcases List.mem_append.mp h1 with h2 | h2
      · exact h (List.mem_of_mem_drop h2)
      · simp at h2
  · exact h

theorem replaceSeg_of_not_colon {s : Str} (h : hasPrefixColon s = false) :
    replaceSeg s = s := by
  simp [replaceSeg, h]

/-- C9 (general part): splitting the result of `replacePath` on `'/'`
recovers exactly the rewritten segments of the input, so the
slash structure (segment count and order, leading empty segment
included) is preserved and each segment is rewritten independently. -/
theorem goSplit_replacePath (path : Str) :
    goSplit '/' (replacePath path) = (goSplit '/' path).map replaceSeg := by
  apply goSplit_goJoin
  · simp [goSplit_ne_nil '/' path]
  · intro x hx
    rcases List.mem_map.mp hx with ⟨y, hy, rfl⟩
    exact slash_not_mem_replaceSeg (not_mem_of_mem_goSplit '/' path y hy)

/-- C9: `replacePath` replaces each colon-prefixed segment of the path
pattern by a brace-delimited placeholder of the same name and keeps
every other segment and the slash structure unchanged (leading empty
segment included); in particular the spec's example
`replacePath("/some/:x/:y") = "/some/{x}/{y}"` holds, and
`replacePath` is a total function on strings by construction. -/
theorem c9_replacePath :
    replacePath (str "/some/:x/:y") = str "/some/\x7bx\x7d/\x7by\x7d" ∧
    (∀ path : Str,
      goSplit '/' (replacePath path) = (goSplit '/' path).map replaceSeg) ∧
    (∀ path : Str,
      (goSplit '/' (replacePath path)).length = (goSplit '/' path).length) ∧
    (∀ name : Str, replaceSeg (':' :: name) = '\x7b' :: (name ++ ['\x7d'])) ∧
    (∀ s : Str, hasPrefixColon s = false → replaceSeg s = s) := by
  refine ⟨by decide, goSplit_replacePath, ?_, fun _ => rfl,
    fun _ h => replaceSeg_of_not_colon h⟩
  intro path
  rw [goSplit_replacePath, List.length_map]

/-! ## Association-map lemmas -/

theorem lookupA_map_write {α β : Type} [DecidableEq α] (k : α) (v : β) :
    ∀ m : List (α × β), m.any (fun p => p.1 = k) = true →
      lookupA (m.map (fun p => if p.1 = k then (k, v) else p)) k = some v := by
  intro m
  induction m with
  | nil => intro h; simp at h
  | cons p rest ih =>
    intro h
    rw [List.map_cons]
    by_cases hk : p.1 = k
    · rw [if_pos hk]; simp [lookupA]
    · rw [if_neg hk]
      have hrest : rest.any (fun p => p.1 = k) = true := by
        simp only [List.any_cons, Bool.or_eq_true, decide_eq_true_eq] at h
        rcases h with h | h
        · exact absurd h hk
        · exact h
      simp [lookupA, hk, ih hrest]

theorem lookupA_append_one {α β : Type} [DecidableEq α] (k : α) (v : β) :
    ∀ m : List (α × β), m.any (fun p => p.1 = k) = false →
      lookupA (m ++ [(k, v)]) k = some v := by
  intro m
  induction m with
  | nil => intro _; simp [lookupA]
  | cons p rest ih =>
    intro h
    simp only [List.any_cons, Bool.or_eq_false_iff, decide_eq_false_iff_not] at h
    simp [lookupA, h.1, ih (by simpa using h.2)]

/-- Go map semantics: after `m[k] = v`, looking up `k` yields `v`. -/
theorem lookupA_setA_self {α β : Type} [DecidableEq α]
    (m : List (α × β)) (k : α) (v : β) : lookupA (setA m k v) k = some v := by
  unfold setA
  split
  · next h => exact lookupA_map_write k v m h
  · next h => exact lookupA_append_one k v m (Bool.eq_false_iff.mpr h)

theorem lookupA_map_write_ne {α β : Type} [DecidableEq α]
    {k k' : α} (v : β) (h : k ≠ k') :
    ∀ m : List (α × β),
      lookupA (m.map (fun p => if p.1 = k then (k, v) else p)) k' =
        lookupA m k' := by
  intro m
  induction m with
  | nil => rfl
  | cons p rest ih =>
    rw [List.map_cons]
    by_cases hk : p.1 = k
    · rw [if_pos hk]
      have h2 : ¬ (p.1 = k') := fun hh => h (hk.symm.trans hh)
      simp [lookupA, fun hh => h hh, h2, ih]
    · rw [if_neg hk]
      by_cases hk' : p.1 = k' <;> simp [lookupA, hk', ih]

theorem lookupA_append_one_ne {α β : Type} [DecidableEq α]
    {k k' : α} (v : β) (h : k ≠ k') :
    ∀ m : List (α × β), lookupA (m ++ [(k, v)]) k' = lookupA m k' := by
  intro m
  induction m with
  | nil => simp [lookupA, fun hh => h hh]
  | cons p rest ih =>
    by_cases hk' : p.1 = k' <;> simp [lookupA, hk', ih]

/-- Go map semantics: assigning key `k` leaves other keys unchanged. -/
theorem lookupA_setA_ne {α β : Type} [DecidableEq α]
    (m : List (α × β)) {k k' : α} (v : β) (h : k ≠ k') :
    lookupA (setA m k v) k' = lookupA m k' := by
  unfold setA
  split
  · exact lookupA_map_write_ne v h m
  · exact lookupA_append_one_ne v h m

theorem countKey_cons {α β : Type} [DecidableEq α]
    (p : α × β) (m : List (α × β)) (k : α) :
    countKey (p :: m) k = (if p.1 = k then 1 else 0) + countKey m k := by
  by_cases hk : p.1 = k <;>
    simp [countKey, List.filter_cons, hk, Nat.add_comm]

theorem countKey_append_one {α β : Type} [DecidableEq α]
    (m : List (α × β)) (k : α) (v : β) :
    countKey (m ++ [(k, v)]) k = countKey m k + 1 := by
  simp [countKey, List.filter_append, List.filter_cons]

theorem countKey_append_one_ne {α β : Type} [DecidableEq α]
    (m : List (α × β)) {k k' : α} (v : β) (h : k ≠ k') :
    countKey (m ++ [(k, v)]) k' = countKey m k' := by
  simp [countKey, List.filter_append, List.filter_cons, h]

theorem countKey_map_write {α β : Type} [DecidableEq α] (k k' : α) (v : β) :
    ∀ m : List (α × β),
      countKey (m.map (fun p => if p.1 = k then (k, v) else p)) k' =
        countKey m k' := by
  intro m
  induction m with
  | nil => rfl
  | cons p rest ih =>
    rw [List.map_cons]
    by_cases hk : p.1 = k
    · rw [if_pos hk]
      rw [countKey_cons, countKey_cons, ih, hk]
    · rw [if_neg hk]
      rw [countKey_cons, countKey_cons, ih]

theorem countKey_nil_of_any_eq_false {α β : Type} [DecidableEq α]
    {m : List (α × β)} {k : α} (h : m.any (fun p => p.1 = k) = false) :
    countKey m k = 0 := by
  induction m with
  | nil => rfl
  | cons p rest ih =>
    simp only [List.any_cons, Bool.or_eq_false_iff, decide_eq_false_iff_not] at h
    rw [countKey_cons, if_neg h.1, ih (by simpa using h.2)]

theorem countKey_pos_of_any {α β : Type} [DecidableEq α]
    {m : List (α × β)} {k : α} (h : m.any (fun p => p.1 = k) = true) :
    1 ≤ countKey m k := by
  induction m with
  | nil => simp at h
  | cons p rest ih =>
    rw [countKey_cons]
    by_cases hk : p.1 = k
    · rw [if_pos hk]; omega
    · have hrest : rest.any (fun p => p.1 = k) = true := by
        simp only [List.any_cons, Bool.or_eq_true, decide_eq_true_eq] at h
        rcases h with h | h
        · exact absurd h hk
        · exact h
      rw [if_neg hk]
      have := ih hrest
      omega

/-- Assigning a key to a map whose keys are stored at most once leaves
that key stored exactly once. -/
theorem countKey_setA {α β : Type} [DecidableEq α]
    (m : List (α × β)) (k : α) (v : β) (h : countKey m k ≤ 1) :
    countKey (setA m k v) k = 1 := by
  unfold setA
  split
  · next hany =>
    rw [countKey_map_write]
    exact le_antisymm h (countKey_pos_of_any hany)
  · next hany =>
    rw [countKey_append_one,
      countKey_nil_of_any_eq_false (Bool.eq_false_iff.mpr hany)]

/-- Assigning any key preserves the at-most-once bound of every key. -/
theorem countKey_setA_le {α β : Type} [DecidableEq α]
    (m : List (α × β)) (k k' : α) (v : β) (h : countKey m k' ≤ 1) :
    countKey (setA m k v) k' ≤ 1 := by
  unfold setA
  split
  · rw [countKey_map_write]; exact h
  · next hany =>
    by_cases hk : k = k'
    · subst hk
      rw [countKey_append_one,
        countKey_nil_of_any_eq_false (Bool.eq_false_iff.mpr hany)]
    · rw [countKey_append_one_ne m v hk]
      exact h

/-! ## Invariants of the definitions map through `addDefinition` -/

theorem dispatchSchema_defs_inv {P : Defs → Prop}
    (recur : Defs → GoType → Option Defs) (env : TypeEnv)
    (hrec : ∀ defs t d, P defs → recur defs t = some d → P d) :
    ∀ (t : GoType) (defs : Defs) (s : PropSchema) (d : Defs),
      P defs → dispatchSchema recur env defs t = some (s, d) → P d := by
  intro t
  induction t
  case ptr elem ih =>
    intro defs s d hP h
    simp only [dispatchSchema] at h
    exact ih defs s d hP h
  case structRef id =>
    intro defs s d hP h
    simp only [dispatchSchema] at h
    cases hr : recur defs (GoType.structRef id) with
    | none => rw [hr] at h; simp at h
    | some d' =>
      rw [hr] at h
      simp only [Option.some.injEq, Prod.mk.injEq] at h
      rcases h with ⟨-, rfl⟩
      exact hrec defs _ d' hP hr
  all_goals
    intro defs s d hP h
  all_goals
    simp only [dispatchSchema, Option.some.injEq, Prod.mk.injEq] at h
  all_goals
    exact h.2 ▸ hP

theorem foldl_defField_none (recur : Defs → GoType → Option Defs)
    (env : TypeEnv) (flds : List GoField) :
    flds.foldl (defField recur env) none = none := by
  induction flds with
  | nil => rfl
  | cons fld rest ih => simpa [defField] using ih

theorem defField_inv {P : Defs → Prop}
    (recur : Defs → GoType → Option Defs) (env : TypeEnv)
    (hrec : ∀ defs t d, P defs → recur defs t = some d → P d)
    (fld : GoField) (props : List (Str × PropSchema)) (defs : Defs)
    (pd : List (Str × PropSchema) × Defs) :
    defField recur env (some (props, defs)) fld = some pd → P defs → P pd.2 := by
  intro h hP
  simp only [defField] at h
  split at h
  · rcases Option.some.injEq .. ▸ h with rfl
    exact hP
  · cases hd : dispatchSchema recur env defs (outerUnwrap fld.type).1 with
    | none => rw [hd] at h; simp at h
    | some sd =>
      obtain ⟨s, d'⟩ := sd
      rw [hd] at h
      simp only [Option.some.injEq] at h
      rw [← h]
      exact dispatchSchema_defs_inv recur env hrec _ defs s d' hP hd

theorem foldl_defField_inv {P : Defs → Prop}
    (recur : Defs → GoType → Option Defs) (env : TypeEnv)
    (hrec : ∀ defs t d, P defs → recur defs t = some d → P d) :
    ∀ (flds : List GoField) (props : List (Str × PropSchema)) (defs : Defs)
      (res : List (Str × PropSchema) × Defs),
      flds.foldl (defField recur env) (some (props, defs)) = some res →
      P defs → P res.2 := by
  intro flds
  induction flds with
  | nil =>
    intro props defs res h hP
    simp only [List.foldl_nil, Option.some.injEq] at h
    rw [← h]
    exact hP
  | cons fld rest ih =>
    intro props defs res h hP
    rw [List.foldl_cons] at h
    cases hstep : defField recur env (some (props, defs)) fld with
    | none =>
      rw [hstep] at h
      rw [foldl_defField_none] at h
      exact absurd h (by simp)
    | some pd =>
      obtain ⟨props', defs'⟩ := pd
      rw [hstep] at h
      exact ih props' defs' res h
        (defField_inv recur env hrec fld props defs _ hstep hP)

/-- Every write `addDefinition` performs on the definitions map goes
through map assignment (`setA`), so any property preserved by `setA`
is an invariant of schema registration. -/
theorem addDefinition_defs_inv {P : Defs → Prop}
    (hset : ∀ (defs : Defs) (k : Str) (v : DefSchema), P defs → P (setA defs k v)) :
    ∀ (fuel : Nat) (env : TypeEnv) (defs : Defs) (t : GoType) (d : Defs),
      addDefinition fuel env defs t = some d → P defs → P d := by
  intro fuel
  induction fuel with
  | zero => intro env defs t d h; simp [addDefinition] at h
  | succ fuel ih =>
    intro env defs t d h hP
    simp only [addDefinition] at h
    cases hf : (structFields env (indirect t)).foldl
        (defField (fun d t => addDefinition fuel env d t) env)
        (some ([], defs)) with
    | none => rw [hf] at h; simp at h
    | some pd =>
      obtain ⟨props, defs1⟩ := pd
      rw [hf] at h
      simp only [Option.some.injEq] at h
      have hpd : P defs1 :=
        foldl_defField_inv _ env
          (fun defs t d hPd hr => ih env defs t d hr hPd) _ [] defs
          (props, defs1) hf hP
      rw [← h]
      exact hset defs1 _ _ hpd

/-- C4: the definitions map is keyed solely by the bare type name:
assignment overwrites the entry for an existing key (`lookupA`/`setA`
laws), `addDefinition` preserves the at-most-one-entry-per-name
invariant on every run, registering the same nested type from two
parent types leaves exactly one entry under its name, and registering
a second, distinct type with the same name overwrites the first
type's entry. -/
theorem c4_definitions_name_key :
    (∀ (m : Defs) (k : Str) (v : DefSchema),
      lookupA (setA m k v) k = some v) ∧
    (∀ (m : Defs) (k : Str) (v : DefSchema),
      countKey m k ≤ 1 → countKey (setA m k v) k = 1) ∧
    (∀ (fuel : Nat) (env : TypeEnv) (defs d : Defs) (t : GoType) (k : Str),
      addDefinition fuel env defs t = some d →
      countKey defs k ≤ 1 → countKey d k ≤ 1) ∧
    ((do
        let d ← addDefinition 3 envTwoParents [] (.structRef 0)
        addDefinition 3 envTwoParents d (.structRef 1)).map
      (fun d => (countKey d (str "T"), lookupA d (str "T"))) =
      some (1, some ⟨[(str "s", .prim (str "string") [])]⟩)) ∧
    ((do
        let d ← addDefinition 1 envShadow [] (.structRef 0)
        addDefinition 1 envShadow d (.structRef 1)).map
      (fun d => (countKey d (str "S"), lookupA d (str "S"))) =
      some (1, some ⟨[(str "b", .prim (str "integer") (str "int64"))]⟩)) := by
  refine ⟨fun m k v => lookupA_setA_self m k v,
    fun m k v h => countKey_setA m k v h, ?_, by decide, by decide⟩
  intro fuel env defs d t k h hle
  exact addDefinition_defs_inv (fun defs k' v hP => countKey_setA_le defs k' k v hP)
    fuel env defs t d h hle

/-- Witness for C4: the overwrite and uniqueness laws evaluated at
concrete inputs. -/
theorem c4_definitions_name_key_witness :
    countKey (setA ([] : Defs) (str "T") ⟨[]⟩) (str "T") = 1 :=
  c4_definitions_name_key.2.1 [] (str "T") ⟨[]⟩ (by decide)

/-- C2 counterexample: the definition built for a struct whose only
tagged field is a sequence of 8-bit integers exposes that property as
an array whose items are themselves arrays of 8-bit integers (the
slice wrapper adds one array layer on top of the array the
8-bit-integer dispatch already produces), which is not an array of
8-bit-integer items. -/
theorem c2_byte_slice_counterexample :
    ((addDefinition 1 envByteBuf [] (.structRef 0)).bind
        (fun d => lookupA d (str "Buf"))).map DefSchema.props =
      some [(str "b",
        .array (.array (.prim (str "integer") (str "int8"))))] ∧
    PropSchema.array (.array (.prim (str "integer") (str "int8"))) ≠
      PropSchema.array (.prim (str "integer") (str "int8")) := by
  exact ⟨by decide, by decide⟩

theorem defField_byte_slice (recur : Defs → GoType → Option Defs)
    (env : TypeEnv) (props : List (Str × PropSchema)) (defs : Defs)
    (tag : Str) (e : GoType) (htag : tag ≠ []) (he : e = .int8 ∨ e = .uint8) :
    defField recur env (some (props, defs)) ⟨tag, .slice e⟩ =
      some (setA props (tagBaseName tag)
        (.array (.array (.prim (str "integer") (str "int8")))), defs) := by
  rcases he with rfl | rfl <;>
    simp [defField, htag, outerUnwrap, dispatchSchema]

theorem defField_lookup_preserve {recur : Defs → GoType → Option Defs}
    {env : TypeEnv} {k : Str} {f : GoField}
    {props : List (Str × PropSchema)} {defs : Defs}
    {pd : List (Str × PropSchema) × Defs}
    (hstep : defField recur env (some (props, defs)) f = some pd)
    (hf : f.tag = [] ∨ tagBaseName f.tag ≠ k) :
    lookupA pd.1 k = lookupA props k := by
  simp only [defField] at hstep
  split at hstep
  · simp only [Option.some.injEq] at hstep
    rw [← hstep]
  · next htag =>
    rcases hf with hf | hf
    · exact absurd hf htag
    · cases hd : dispatchSchema recur env defs (outerUnwrap f.type).1 with
      | none => rw [hd] at hstep; simp at hstep
      | some sd =>
        obtain ⟨sch, d2⟩ := sd
        rw [hd] at hstep
        simp only [Option.some.injEq] at hstep
        rw [← hstep]
        exact lookupA_setA_ne _ _ hf

theorem foldl_defField_lookup_preserve (recur : Defs → GoType → Option Defs)
    (env : TypeEnv) (k : Str) :
    ∀ (flds : List GoField) (props : List (Str × PropSchema)) (defs : Defs)
      (pd : List (Str × PropSchema) × Defs),
      flds.foldl (defField recur env) (some (props, defs)) = some pd →
      (∀ f ∈ flds, f.tag = [] ∨ tagBaseName f.tag ≠ k) →
      lookupA pd.1 k = lookupA props k := by
  intro flds
  induction flds with
  | nil =>
    intro props defs pd h _
    simp only [List.foldl_nil, Option.some.injEq] at h
    rw [← h]
  | cons f rest ih =>
    intro props defs pd h hall
    rw [List.foldl_cons] at h
    cases hstep : defField recur env (some (props, defs)) f with
    | none =>
      rw [hstep, foldl_defField_none] at h
      exact absurd h (by simp)
    | some pd1 =>
      obtain ⟨p1, d1⟩ := pd1
      rw [hstep] at h
      rw [ih p1 d1 pd h (fun f2 hf2 => hall f2 (List.mem_cons_of_mem f hf2))]
      exact defField_lookup_preserve hstep (hall f (List.mem_cons_self f rest))

/-- C2 (amended): a field whose type is a sequence of 8-bit integers
(signed or unsigned) is emitted as an array whose items are arrays of
8-bit integers — the slice wrapping mode wraps the array-of-int8
schema that the 8-bit-integer dispatch itself produces — and in
particular not as a string schema.  Stated per field (the loop body
sets the property under the stripped tag name for any surrounding
state), lifted to a byte-slice field at an arbitrary position in an
arbitrary record (provided no later field re-uses its property name,
which would overwrite it), and evaluated on a record mirroring the
repository's `subRes`, where the byte-slice field sits among other
fields. -/
theorem c2_byte_slice_amended :
    (∀ (recur : Defs → GoType → Option Defs) (env : TypeEnv)
       (props : List (Str × PropSchema)) (defs : Defs) (tag : Str) (e : GoType),
      tag ≠ [] → (e = .int8 ∨ e = .uint8) →
      defField recur env (some (props, defs)) ⟨tag, .slice e⟩ =
        some (setA props (tagBaseName tag)
          (.array (.array (.prim (str "integer") (str "int8")))), defs)) ∧
    (∀ (fuel : Nat) (env : TypeEnv) (defs : Defs) (id : Nat) (st : GoStruct)
       (l1 l2 : List GoField) (tag : Str) (e : GoType) (d : Defs),
      lookupEnv env id = some st →
      st.fields = l1 ++ ⟨tag, .slice e⟩ :: l2 →
      tag ≠ [] → (e = .int8 ∨ e = .uint8) →
      (∀ f ∈ l2, f.tag = [] ∨ tagBaseName f.tag ≠ tagBaseName tag) →
      addDefinition (fuel + 1) env defs (.structRef id) = some d →
      ∃ (props : List (Str × PropSchema)) (defs1 : Defs),
        d = setA defs1 (typeName env (.structRef id)) ⟨props⟩ ∧
        lookupA props (tagBaseName tag) =
          some (.array (.array (.prim (str "integer") (str "int8"))))) ∧
    (((addDefinition 1 envSubRes [] (.structRef 0)).bind
        (fun d => lookupA d (str "subRes"))).map
      (fun ds => lookupA ds.props (str "another")) =
      some (some (.array (.array (.prim (str "integer") (str "int8")))))) := by
  refine ⟨fun recur env props defs tag e htag he =>
    defField_byte_slice recur env props defs tag e htag he, ?_, by decide⟩
  intro fuel env defs id st l1 l2 tag e d hlook hsplit htag he hlater hadd
  have hfields : structFields env (.structRef id) = st.fields := by
    simp [structFields, hlook]
  have hind : indirect (GoType.structRef id) = .structRef id := rfl
  simp only [addDefinition, hind] at hadd
  rw [hfields, hsplit, List.foldl_append, List.foldl_cons] at hadd
  cases hA : l1.foldl (defField (fun d t => addDefinition fuel env d t) env)
      (some ([], defs)) with
  | none =>
    rw [hA] at hadd
    have hnone : defField (fun d t => addDefinition fuel env d t) env
        none ⟨tag, .slice e⟩ = none := rfl
    rw [hnone, foldl_defField_none] at hadd
    simp at hadd
  | some pd1 =>
    obtain ⟨p1, d1⟩ := pd1
    rw [hA, defField_byte_slice _ env p1 d1 tag e htag he] at hadd
    cases hB : l2.foldl (defField (fun d t => addDefinition fuel env d t) env)
        (some (setA p1 (tagBaseName tag)
          (.array (.array (.prim (str "integer") (str "int8")))), d1)) with
    | none =>
      rw [hB] at hadd
      simp at hadd
    | some pd2 =>
      obtain ⟨props, defs1⟩ := pd2
      rw [hB] at hadd
      simp only [Option.some.injEq] at hadd
      refine ⟨props, defs1, hadd.symm, ?_⟩
      have hpres := foldl_defField_lookup_preserve
        (fun d t => addDefinition fuel env d t) env (tagBaseName tag) l2
        (setA p1 (tagBaseName tag)
          (.array (.array (.prim (str "integer") (str "int8"))))) d1
        (props, defs1) hB hlater
      rw [lookupA_setA_self] at hpres
      exact hpres

/-- Witness for C2's amended theorem on the `subRes`-like record: the
byte-slice field `another` sits after the string field `some`. -/
theorem c2_byte_slice_witness :
    ∃ (props : List (Str × PropSchema)) (defs1 : Defs),
      ([(str "subRes",
          (⟨[(str "some", .prim (str "string") []),
             (str "another",
              .array (.array (.prim (str "integer") (str "int8"))))]⟩ :
            DefSchema))] : Defs) =
        setA defs1 (typeName envSubRes (.structRef 0)) ⟨props⟩ ∧
      lookupA props (tagBaseName (str "another")) =
        some (.array (.array (.prim (str "integer") (str "int8")))) :=
  c2_byte_slice_amended.2.1 0 envSubRes [] 0
    ⟨str "subRes", [⟨str "some", .string⟩, ⟨str "another", .slice .uint8⟩]⟩
    [⟨str "some", .string⟩] [] (str "another") .uint8
    [(str "subRes", ⟨[(str "some", .prim (str "string") []),
       (str "another", .array (.array (.prim (str "integer") (str "int8"))))]⟩)]
    (by decide) (by decide) (by decide) (Or.inr rfl) (by decide) (by decide)

theorem setParameter_fields {q : Param} {t : GoType} {p : Param}
    (h : setParameter q t = some p) :
    p.name = q.name ∧ p.loc = q.loc ∧ p.required = q.required ∧
    p.allowEmptyValue = q.allowEmptyValue := by
  cases t <;>
    first
      | (simp only [setParameter, Option.some.injEq] at h; rw [← h]; simp [typed])
      | (rename_i e; cases e <;>
          first
            | (simp only [setParameter, Option.some.injEq] at h;
               rw [← h]; simp [typed])
            | exact absurd h (by simp [setParameter]))
      | exact absurd h (by simp [setParameter])

theorem setParameter_isSome {q : Param} {t : GoType}
    (h : paramSupported t = true) : (setParameter q t).isSome := by
  cases t <;>
    first
      | (simp [paramSupported] at h; done)
      | (simp [setParameter]; done)
      | (rename_i e; cases e <;>
          first
            | (simp [paramSupported] at h; done)
            | (simp [setParameter]; done))

theorem setParameter_none {q : Param} {t : GoType}
    (h : paramSupported t = false) : setParameter q t = none := by
  cases t <;>
    first
      | (simp [paramSupported] at h; done)
      | (simp [setParameter]; done)
      | (rename_i e; cases e <;>
          first
            | (simp [paramSupported] at h; done)
            | (simp [setParameter]; done))

theorem mem_addParam {o : Op} {q : Option Param} {p : Param}
    (h : p ∈ (o.addParam q).parameters) :
    p ∈ o.parameters ∨ q = some p := by
  cases q with
  | none => exact Or.inl h
  | some q' =>
    simp only [Op.addParam] at h
    split at h
    · simp only at h
      rcases List.mem_map.mp h with ⟨x, hx, hfx⟩
      by_cases hc : x.name = q'.name ∧ x.loc = q'.loc
      · rw [if_pos hc] at hfx
        exact Or.inr (by rw [hfx])
      · rw [if_neg hc] at hfx
        exact Or.inl (hfx ▸ hx)
    · simp only at h
      rcases List.mem_append.mp h with h1 | h1
      · exact Or.inl h1
      · simp at h1
        exact Or.inr (by rw [h1])

theorem mem_foldl_addParam (f : GoField → Option Param) :
    ∀ (flds : List GoField) (op : Op) (p : Param),
      p ∈ (flds.foldl (fun o fld => o.addParam (f fld)) op).parameters →
      p ∈ op.parameters ∨ ∃ fld ∈ flds, f fld = some p := by
  intro flds
  induction flds with
  | nil => intro op p h; exact Or.inl h
  | cons fld rest ih =>
    intro op p h
    rw [List.foldl_cons] at h
    rcases ih (op.addParam (f fld)) p h with h1 | ⟨fld', h2, h3⟩
    · rcases mem_addParam h1 with h2 | h2
      · exact Or.inl h2
      · exact Or.inr ⟨fld, List.mem_cons_self fld rest, h2⟩
    · exact Or.inr ⟨fld', List.mem_cons_of_mem fld h2, h3⟩

/-- C1 counterexample: an input record field with the non-empty tag
name `b` of type `bool`, against the pattern `/x` (no path segments):
the claim requires a required, no-empty-values query parameter named
`b` to be emitted, but `setInput` emits no parameter at all —
`setParameter` returns `nil` for the unsupported kind and the
parameter is silently dropped. -/
theorem c1_classifier_counterexample :
    (str "b" ≠ []) ∧
    (setInput envBoolField (initOp (str "s") (str "c") []) (str "/x")
        (.structRef 0)).parameters = [] := by
  exact ⟨by decide, by decide⟩

/-- C1 (amended): for every pattern and tagged field, `setInput` skips
fields with an empty tag name; for a field whose kind `setParameter`
supports it emits exactly one parameter carrying the verbatim tag
name, marked required with empty values rejected, classified as a
path parameter when the tag name equals a colon-stripped segment of
the pattern and as a query parameter otherwise; fields of unsupported
kinds produce no parameter; and every parameter `setInput` adds to an
operation arises this way from some field. -/
theorem c1_classifier_amended :
    (∀ (pps : List Str) (fld : GoField), fld.tag = [] →
      classifyField pps fld = none) ∧
    (∀ (pps : List Str) (fld : GoField), paramSupported fld.type = false →
      classifyField pps fld = none) ∧
    (∀ (pps : List Str) (fld : GoField), fld.tag ≠ [] →
      paramSupported fld.type = true →
      ∃ p, classifyField pps fld = some p ∧ p.name = fld.tag ∧
        p.required = true ∧ p.allowEmptyValue = false ∧
        p.loc = (if fld.tag ∈ pps then str "path" else str "query")) ∧
    (∀ (env : TypeEnv) (op : Op) (path : Str) (inT : GoType) (p : Param),
      p ∈ (setInput env op path inT).parameters →
      p ∈ op.parameters ∨
      ∃ fld ∈ structFields env (indirect inT),
        classifyField (pathParams path) fld = some p) := by
  refine ⟨?_, ?_, ?_, ?_⟩
  · intro pps fld h
    simp [classifyField, h]
  · intro pps fld h
    unfold classifyField
    split
    · rfl
    · split <;> exact setParameter_none h
  · intro pps fld htag hsup
    unfold classifyField
    rw [if_neg htag]
    by_cases hmem : fld.tag ∈ pps
    · rw [if_pos hmem]
      obtain ⟨p, hp⟩ := Option.isSome_iff_exists.mp
        (setParameter_isSome (q := noEmptyValues (asRequired (pathParam fld.tag))) hsup)
      obtain ⟨h1, h2, h3, h4⟩ := setParameter_fields hp
      exact ⟨p, hp, by simpa [noEmptyValues, asRequired, pathParam] using h1,
        by simpa [noEmptyValues, asRequired, pathParam] using h3,
        by simpa [noEmptyValues, asRequired, pathParam] using h4,
        by rw [if_pos hmem]; simpa [noEmptyValues, asRequired, pathParam] using h2⟩
    · rw [if_neg hmem]
      obtain ⟨p, hp⟩ := Option.isSome_iff_exists.mp
        (setParameter_isSome (q := noEmptyValues (asRequired (queryParam fld.tag))) hsup)
      obtain ⟨h1, h2, h3, h4⟩ := setParameter_fields hp
      exact ⟨p, hp, by simpa [noEmptyValues, asRequired, queryParam] using h1,
        by simpa [noEmptyValues, asRequired, queryParam] using h3,
        by simpa [noEmptyValues, asRequired, queryParam] using h4,
        by rw [if_neg hmem]; simpa [noEmptyValues, asRequired, queryParam] using h2⟩
  · intro env op path inT p h
    exact mem_foldl_addParam (classifyField (pathParams path)) _ op p h

/-- Witness for C1's amended theorem: a supported string field against
the pattern `/some/:x/:y` is classified as a path parameter. -/
theorem c1_classifier_witness :
    ∃ p, classifyField (pathParams (str "/some/:x/:y")) ⟨str "x", .string⟩ = some p ∧
      p.name = str "x" ∧ p.required = true ∧ p.allowEmptyValue = false ∧
      p.loc = (if str "x" ∈ pathParams (str "/some/:x/:y") then str "path"
               else str "query") :=
  c1_classifier_amended.2.2.1 (pathParams (str "/some/:x/:y"))
    ⟨str "x", .string⟩ (by decide) (by decide)

/-- C10: the parameter classifier uses the raw tag value verbatim —
every parameter it emits is named by the full literal tag string, a
tag of the shape `base,modifier` never equals `base` (so it can never
match the pattern segment `:base`), and against any pattern whose
segments are comma-free such a field is classified as a query
parameter — whereas the definition builder splits on the comma and
exposes the property under the trimmed leading name component; both
behaviours evaluated concretely for tag `x,omitempty`. -/
theorem c10_tag_modifiers :
    (∀ (pps : List Str) (fld : GoField) (p : Param),
      classifyField pps fld = some p → p.name = fld.tag) ∧
    (∀ (base suffix : Str), base ++ ',' :: suffix ≠ base) ∧
    (∀ (pps : List Str) (base suffix : Str) (fld : GoField) (p : Param),
      fld.tag = base ++ ',' :: suffix → (∀ s ∈ pps, ',' ∉ s) →
      classifyField pps fld = some p → p.loc = str "query") ∧
    (∀ (base suffix : Str), ',' ∉ base →
      tagBaseName (base ++ ',' :: suffix) = goTrimSpace base) ∧
    ((setInput envModTag (initOp (str "s") (str "c") []) (str "/a/:x")
        (.structRef 0)).parameters =
      [{ name := str "x,omitempty", loc := str "query", required := true,
         allowEmptyValue := false, type := str "string",
         format := str "string", schema := none }]) ∧
    (addDefinition 1 envModTag [] (.structRef 0) =
      some [(str "M", ⟨[(str "x", .prim (str "string") [])]⟩)]) := by
  refine ⟨?_, ?_, ?_, ?_, by decide, by decide⟩
  · intro pps fld p h
    unfold classifyField at h
    split at h
    · exact absurd h (by simp)
    · split at h <;>
        simpa [noEmptyValues, asRequired, pathParam, queryParam] using
          (setParameter_fields h).1
  · intro base suffix heq
    have := congrArg List.length heq
    simp at this
  · intro pps base suffix fld p htag hfree h
    have hmem : fld.tag ∉ pps := by
      intro hmem
      exact hfree fld.tag hmem
        (htag ▸ List.mem_append.mpr (Or.inr (List.mem_cons_self ',' suffix)))
    have hne : fld.tag ≠ [] := by
      rw [htag]
      intro hh
      simpa using congrArg List.length hh
    unfold classifyField at h
    rw [if_neg hne, if_neg hmem] at h
    simpa [noEmptyValues, asRequired, queryParam] using
      (setParameter_fields h).2.1
  · intro base suffix hb
    unfold tagBaseName
    rw [goSplit_append_cons hb]
    obtain ⟨g, gs, hgs⟩ := goSplit_eq_cons ',' suffix
    rw [hgs]

/-- Witness for C10 at the concrete tag `x,omitempty`. -/
theorem c10_tag_modifiers_witness :
    tagBaseName (str "x" ++ ',' :: str "omitempty") = goTrimSpace (str "x") :=
  c10_tag_modifiers.2.2.2.1 (str "x") (str "omitempty") (by decide)

theorem lookupA_mem {α β : Type} [DecidableEq α] :
    ∀ {l : List (α × β)} {k : α} {v : β}, lookupA l k = some v → (k, v) ∈ l := by
  intro l
  induction l with
  | nil => intro k v h; simp [lookupA] at h
  | cons p rest ih =>
    intro k v h
    unfold lookupA at h
    split at h
    · next hk =>
      simp only [Option.some.injEq] at h
      exact List.mem_cons.mpr (Or.inl (Prod.ext hk.symm h.symm))
    · exact List.mem_cons_of_mem p (ih h)

theorem dispatchSchema_isSome (recur : Defs → GoType → Option Defs)
    (env : TypeEnv) :
    ∀ (t : GoType) (defs : Defs),
      (∀ id, stripPtrs t = .structRef id →
        ∀ defs', (recur defs' (.structRef id)).isSome) →
      (dispatchSchema recur env defs t).isSome := by
  intro t
  induction t
  case ptr elem ih =>
    intro defs hrec
    simp only [dispatchSchema]
    exact ih defs (fun id hid defs' => hrec id (by simpa [stripPtrs] using hid) defs')
  case structRef id =>
    intro defs hrec
    have h := hrec id (by simp [stripPtrs]) defs
    simp only [dispatchSchema]
    cases hr : recur defs (GoType.structRef id) with
    | none => rw [hr] at h; simp at h
    | some d => simp
  all_goals intro defs hrec
  all_goals simp [dispatchSchema]

theorem foldl_defField_isSome (recur : Defs → GoType → Option Defs)
    (env : TypeEnv) :
    ∀ (flds : List GoField),
      (∀ fld ∈ flds, ∀ props defs,
        (defField recur env (some (props, defs)) fld).isSome) →
      ∀ (props : List (Str × PropSchema)) (defs : Defs),
        (flds.foldl (defField recur env) (some (props, defs))).isSome := by
  intro flds
  induction flds with
  | nil => intro _ props defs; simp
  | cons fld rest ih =>
    intro hstep props defs
    rw [List.foldl_cons]
    cases hd : defField recur env (some (props, defs)) fld with
    | none =>
      have := hstep fld (List.mem_cons_self fld rest) props defs
      rw [hd] at this
      simp at this
    | some pd =>
      obtain ⟨props', defs'⟩ := pd
      exact ih (fun f hf => hstep f (List.mem_cons_of_mem fld hf)) props' defs'

theorem one_le_entryFuel (rank : Nat → Nat) (t : GoType) :
    1 ≤ entryFuel rank t := by
  unfold entryFuel
  split <;> omega

/-- Ranked environments make `addDefinition` terminate: a budget
of at least `entryFuel` — one more than the rank of the
(pointer-unwrapped) entry type — suffices. -/
theorem addDefinition_total_of_ranked {env : TypeEnv} {rank : Nat → Nat}
    (henv : envRanked env rank) :
    ∀ (fuel : Nat) (t : GoType) (defs : Defs),
      entryFuel rank t ≤ fuel →
      (addDefinition fuel env defs t).isSome := by
  intro fuel
  induction fuel with
  | zero =>
    intro t defs h
    have := one_le_entryFuel rank t
    omega
  | succ fuel ih =>
    intro t defs h
    simp only [addDefinition]
    have hfold : ((structFields env (indirect t)).foldl
        (defField (fun d t => addDefinition fuel env d t) env)
        (some ([], defs))).isSome := by
      cases ht : indirect t
      case structRef id =>
        simp only [entryFuel, ht] at h
        cases hlook : lookupEnv env id with
        | none => simp [structFields, hlook]
        | some st =>
          have hmem : (id, st) ∈ env := lookupA_mem hlook
          have hfields : structFields env (GoType.structRef id) = st.fields := by
            simp [structFields, hlook]
          rw [hfields]
          apply foldl_defField_isSome
          intro fld hfld props defs'
          simp only [defField]
          split
          · simp
          · have hdisp : (dispatchSchema (fun d t => addDefinition fuel env d t)
                env defs' (outerUnwrap fld.type).1).isSome := by
              apply dispatchSchema_isSome
              intro id' hid' defs''
              have htgt : id' ∈ (recTarget fld.type).toList := by
                simp [recTarget, hid']
              have hrank : rank id' < rank id := henv (id, st) hmem fld hfld id' htgt
              apply ih
              simp only [entryFuel, indirect]
              omega
            cases hdd : dispatchSchema (fun d t => addDefinition fuel env d t)
                env defs' (outerUnwrap fld.type).1 with
            | none => rw [hdd] at hdisp; simp at hdisp
            | some sd =>
              obtain ⟨sch, d2⟩ := sd
              simp
      all_goals simp [structFields]
    cases hf : (structFields env (indirect t)).foldl
        (defField (fun d t => addDefinition fuel env d t) env)
        (some ([], defs)) with
    | none => rw [hf] at hfold; simp at hfold
    | some pd =>
      obtain ⟨props, defs1⟩ := pd
      simp

/-- In the self-referential environment `addDefinition` runs out of
any recursion budget: the registration never terminates. -/
theorem addDefinition_selfRef_none :
    ∀ (fuel : Nat) (defs : Defs),
      addDefinition fuel envSelfRef defs (.structRef 0) = none := by
  intro fuel
  induction fuel with
  | zero => intro defs; simp [addDefinition]
  | succ fuel ih =>
    intro defs
    have hfields : structFields envSelfRef (.structRef 0) =
        [⟨str "a", .structRef 0⟩] := by decide
    simp only [addDefinition]
    rw [show indirect (GoType.structRef 0) = .structRef 0 from rfl, hfields]
    simp only [List.foldl_cons, List.foldl_nil]
    have hstep : defField (fun d t => addDefinition fuel envSelfRef d t)
        envSelfRef (some ([], defs)) ⟨str "a", .structRef 0⟩ = none := by
      simp only [defField]
      rw [if_neg (by decide)]
      simp [outerUnwrap, dispatchSchema, ih defs]
    rw [hstep]

/-- C3: `addDefinition` has no cycle detection — on a self-referential
record type its recursive registration exhausts every recursion-depth
budget (it does not terminate) — while for every environment whose
nested-struct recursion graph admits a rank certificate (equivalently,
is acyclic) it terminates on every type within an explicit budget. -/
theorem c3_addDefinition_recursion :
    (∀ (fuel : Nat) (defs : Defs),
      addDefinition fuel envSelfRef defs (.structRef 0) = none) ∧
    (∀ (env : TypeEnv) (rank : Nat → Nat), envRanked env rank →
      ∀ (t : GoType) (defs : Defs),
        (addDefinition (entryFuel rank t) env defs t).isSome) := by
  refine ⟨addDefinition_selfRef_none, ?_⟩
  intro env rank henv t defs
  exact addDefinition_total_of_ranked henv (entryFuel rank t) t defs (Nat.le_refl _)

/-- Witness for C3: the termination half applied to the concrete
acyclic environment with an explicit rank certificate. -/
theorem c3_addDefinition_recursion_witness :
    (addDefinition (entryFuel (fun id => if id = 0 then 1 else 0)
        (GoType.structRef 0)) envAcyclic [] (.structRef 0)).isSome :=
  c3_addDefinition_recursion.2 envAcyclic (fun id => if id = 0 then 1 else 0)
    (by unfold envRanked; decide) (.structRef 0) []

theorem peFold_map_lookup (env : TypeEnv) :
    ∀ (pes : List PossibleError) (m0 : List (Int × List Str)) (op0 : Op)
      (k : Int),
      (lookupA (pes.foldl (peStep env) (m0, op0)).1 k).getD [] =
        (lookupA m0 k).getD [] ++ itemsFor pes k := by
  intro pes
  induction pes with
  | nil => intro m0 op0 k; simp [itemsFor]
  | cons pe rest ih =>
    intro m0 op0 k
    rw [List.foldl_cons]
    by_cases hk : pe.code = k
    · have : (lookupA (peStep env (m0, op0) pe).1 k).getD [] =
          (lookupA m0 k).getD [] ++ [pe.item] := by
        simp only [peStep, ← hk]
        rw [lookupA_setA_self]
        simp
      rw [ih, this]
      simp [itemsFor, List.filter_cons, hk, List.append_assoc]
    · have : (lookupA (peStep env (m0, op0) pe).1 k).getD [] =
          (lookupA m0 k).getD [] := by
        simp only [peStep]
        rw [lookupA_setA_ne _ _ hk]
      rw [ih, this]
      simp [itemsFor, List.filter_cons, hk]

theorem peFold_responses (env : TypeEnv) :
    ∀ (pes : List PossibleError) (m0 : List (Int × List Str)) (op0 : Op)
      (k : Int) (peL : PossibleError),
      (pes.filter (fun pe => pe.code = k)).getLast? = some peL →
      lookupA ((pes.foldl (peStep env) (m0, op0)).2).responses k =
        some ⟨str "Items: " ++ goJoin (str ", ")
                ((lookupA m0 k).getD [] ++ itemsFor pes k),
              some (refDef (typeName env (indirect peL.message)))⟩ := by
  intro pes
  induction pes using List.reverseRecOn with
  | nil => intro m0 op0 k peL h; simp at h
  | append_singleton l pe ih =>
    intro m0 op0 k peL h
    rw [List.foldl_append, List.foldl_cons, List.foldl_nil]
    by_cases hk : pe.code = k
    · subst hk
      have hfa : (l ++ [pe]).filter (fun q => q.code = pe.code) =
          l.filter (fun q => q.code = pe.code) ++ [pe] := by
        simp [List.filter_append, List.filter_cons]
      rw [hfa, List.getLast?_concat] at h
      have hlast : pe = peL := by simpa using h
      subst hlast
      simp only [peStep, Op.respondsWith]
      rw [lookupA_setA_self, peFold_map_lookup env l m0 op0 pe.code]
      have hitems : itemsFor (l ++ [pe]) pe.code =
          itemsFor l pe.code ++ [pe.item] := by
        simp [itemsFor, List.filter_append, List.filter_cons]
      rw [hitems]
      simp [List.append_assoc]
    · have hfilter : (l ++ [pe]).filter (fun q => q.code = k) =
          l.filter (fun q => q.code = k) := by
        simp [List.filter_append, List.filter_cons, hk]
      rw [hfilter] at h
      simp only [peStep, Op.respondsWith]
      rw [lookupA_setA_ne _ _ hk]
      rw [ih m0 op0 k peL h]
      have hitems : itemsFor (l ++ [pe]) k = itemsFor l k := by
        simp [itemsFor, List.filter_append, List.filter_cons, hk]
      rw [hitems]

theorem mem_of_getLast?_eq {α : Type} {l : List α} {a : α}
    (h : l.getLast? = some a) : a ∈ l := by
  have hne : l ≠ [] := by intro hl; rw [hl] at h; simp at h
  rw [List.getLast?_eq_getLast_of_ne_nil hne] at h
  have heq : l.getLast hne = a := by simpa using h
  exact heq ▸ List.getLast_mem hne

theorem peFold_responses_countKey (env : TypeEnv) :
    ∀ (pes : List PossibleError) (m0 : List (Int × List Str)) (op0 : Op)
      (k : Int), countKey op0.responses k ≤ 1 →
      countKey ((pes.foldl (peStep env) (m0, op0)).2).responses k ≤ 1 := by
  intro pes
  induction pes with
  | nil => intro m0 op0 k h; exact h
  | cons pe rest ih =>
    intro m0 op0 k h
    rw [List.foldl_cons]
    exact ih _ _ k (countKey_setA_le _ _ _ _ h)

/-- C8: possible-error entries sharing a status code are merged into a
single response entry for that code: the final response map stores at
most one entry per code, the entry's description is `"Items: "`
followed by all item labels declared with that code, comma-joined, in
declaration order, and its schema references the definition of the
error-payload type (of the last such entry — in particular, of the
single payload type when all entries with that code share one). -/
theorem c8_error_response_merging :
    (∀ (env : TypeEnv) (pes : List PossibleError) (op0 : Op) (k : Int)
       (peL : PossibleError),
      (pes.filter (fun pe => pe.code = k)).getLast? = some peL →
      lookupA (peOps env pes op0).responses k =
        some ⟨str "Items: " ++ goJoin (str ", ") (itemsFor pes k),
              some (refDef (typeName env (indirect peL.message)))⟩) ∧
    (∀ (env : TypeEnv) (pes : List PossibleError) (op0 : Op) (k : Int)
       (peL : PossibleError) (n : Str),
      (pes.filter (fun pe => pe.code = k)).getLast? = some peL →
      (∀ pe ∈ pes, pe.code = k → typeName env (indirect pe.message) = n) →
      lookupA (peOps env pes op0).responses k =
        some ⟨str "Items: " ++ goJoin (str ", ") (itemsFor pes k),
              some (refDef n)⟩) ∧
    (∀ (env : TypeEnv) (pes : List PossibleError) (op0 : Op) (k : Int),
      countKey op0.responses k ≤ 1 →
      countKey (peOps env pes op0).responses k ≤ 1) := by
  refine ⟨?_, ?_, ?_⟩
  · intro env pes op0 k peL h
    unfold peOps
    have := peFold_responses env pes [] op0 k peL h
    simpa [lookupA] using this
  · intro env pes op0 k peL n h hn
    have hmem : peL ∈ pes.filter (fun pe => pe.code = k) :=
      mem_of_getLast?_eq h
    rw [List.mem_filter] at hmem
    have hcode : peL.code = k := by simpa using hmem.2
    have hname := hn peL hmem.1 hcode
    unfold peOps
    have := peFold_responses env pes [] op0 k peL h
    rw [hname] at this
    simpa [lookupA] using this
  · intro env pes op0 k h
    unfold peOps
    exact peFold_responses_countKey env pes [] op0 k h

/-- Witness for C8: two entries sharing code 504 produce one response
whose description joins both labels in declaration order. -/
theorem c8_error_response_merging_witness :
    lookupA (peOps [] [⟨504, str "A", .string⟩, ⟨504, str "B", .string⟩]
        (initOp (str "s") (str "c") [])).responses 504 =
      some ⟨str "Items: " ++ goJoin (str ", ")
              (itemsFor [⟨504, str "A", .string⟩, ⟨504, str "B", .string⟩] 504),
            some (refDef (typeName [] (indirect GoType.string)))⟩ :=
  c8_error_response_merging.1 [] [⟨504, str "A", .string⟩, ⟨504, str "B", .string⟩]
    (initOp (str "s") (str "c") []) 504 ⟨504, str "B", .string⟩ (by decide)

theorem any_loc_map_replace (p : Param) (target : Str) :
    ∀ params : List Param,
      ((params.map (fun q =>
        if q.name = p.name ∧ q.loc = p.loc then p else q)).any
          (fun x => x.loc = target)) =
        params.any (fun x => x.loc = target) := by
  intro params
  induction params with
  | nil => rfl
  | cons q rest ih =>
    rw [List.map_cons]
    by_cases hc : q.name = p.name ∧ q.loc = p.loc
    · rw [if_pos hc]
      simp only [List.any_cons, ih, hc.2]
    · rw [if_neg hc]
      simp only [List.any_cons, ih]

theorem hasBodyParam_addParam_of_ne {p : Param} (o : Op)
    (h : ¬ p.loc = str "body") :
    hasBodyParam (o.addParam (some p)) = hasBodyParam o := by
  simp only [Op.addParam]
  split
  · simp only [hasBodyParam]
    exact any_loc_map_replace p (str "body") o.parameters
  · simp [hasBodyParam, List.any_append, h]

theorem hasBodyParam_addParam_true {o : Op} (q : Option Param)
    (h : hasBodyParam o = true) :
    hasBodyParam (o.addParam q) = true := by
  cases q with
  | none => exact h
  | some p =>
    simp only [Op.addParam]
    split
    · simp only [hasBodyParam]
      rw [any_loc_map_replace]
      exact h
    · simp only [hasBodyParam, List.any_append]
      simp only [hasBodyParam] at h
      rw [h]
      simp

theorem hasBodyParam_addParam_body (o : Op) (n : Str) (s : PropSchema) :
    hasBodyParam (o.addParam (some (bodyParam n s))) = true := by
  simp only [Op.addParam]
  split
  · next hany =>
    simp only [hasBodyParam, List.any_eq_true]
    rcases List.any_eq_true.mp hany with ⟨x, hx, hmatch⟩
    refine ⟨bodyParam n s, ?_, by simp [bodyParam]⟩
    refine List.mem_map.mpr ⟨x, hx, ?_⟩
    rw [if_pos (by simpa using hmatch)]
  · simp [hasBodyParam, List.any_append, bodyParam]

theorem classifyField_loc {pps : List Str} {fld : GoField} {p : Param}
    (h : classifyField pps fld = some p) :
    p.loc = str "path" ∨ p.loc = str "query" := by
  unfold classifyField at h
  split at h
  · exact absurd h (by simp)
  · split at h
    · exact Or.inl (by simpa [noEmptyValues, asRequired, pathParam] using
        (setParameter_fields h).2.1)
    · exact Or.inr (by simpa [noEmptyValues, asRequired, queryParam] using
        (setParameter_fields h).2.1)

theorem hasBodyParam_foldl_classify (path : Str) :
    ∀ (flds : List GoField) (op : Op),
      hasBodyParam (flds.foldl (fun o fld =>
        o.addParam (classifyField (pathParams path) fld)) op) =
      hasBodyParam op := by
  intro flds
  induction flds with
  | nil => intro op; rfl
  | cons fld rest ih =>
    intro op
    rw [List.foldl_cons, ih]
    cases hc : classifyField (pathParams path) fld with
    | none => rfl
    | some p =>
      apply hasBodyParam_addParam_of_ne
      rcases classifyField_loc hc with h | h <;> rw [h] <;> decide

theorem hasBodyParam_setInput (env : TypeEnv) (path : Str) (inT : GoType)
    (op : Op) : hasBodyParam (setInput env op path inT) = hasBodyParam op := by
  simp only [setInput]
  exact hasBodyParam_foldl_classify path (structFields env (indirect inT)) op

theorem hasBodyParam_selOps (env : TypeEnv) (inT : GoType) :
    ∀ (sels : List Sel) (op : Op),
      hasBodyParam (selOps env inT sels op) =
        (hasBodyParam op || hasBodySel sels) := by
  intro sels
  induction sels with
  | nil => intro op; simp [selOps, hasBodySel]
  | cons sel rest ih =>
    intro op
    unfold selOps at ih ⊢
    rw [List.foldl_cons]
    cases sel with
    | other =>
      rw [ih]
      simp [selStep, hasBodySel]
    | rest m q =>
      rw [ih]
      simp only [selStep]
      by_cases hb : isBodyMethod (goToUpper m)
      · rw [if_pos hb]
        rw [hasBodyParam_addParam_body]
        simp [hasBodySel, hb]
      · rw [if_neg hb]
        rw [hasBodyParam_setInput]
        simp [hasBodySel, hb, Bool.or_comm, Bool.or_assoc, Bool.or_left_comm]

theorem addParam_preserve_mem {o : Op} {p q : Param}
    (hmem : p ∈ o.parameters)
    (h : q = p ∨ ¬ (p.name = q.name ∧ p.loc = q.loc)) :
    p ∈ (o.addParam (some q)).parameters := by
  simp only [Op.addParam]
  split
  · apply List.mem_map.mpr
    refine ⟨p, hmem, ?_⟩
    rcases h with rfl | h
    · split <;> rfl
    · rw [if_neg h]
  · exact List.mem_append.mpr (Or.inl hmem)

theorem addParam_mem_self (o : Op) (q : Param) :
    q ∈ (o.addParam (some q)).parameters := by
  simp only [Op.addParam]
  split
  · next hany =>
    rcases List.any_eq_true.mp hany with ⟨x, hx, hmatch⟩
    apply List.mem_map.mpr
    exact ⟨x, hx, by rw [if_pos (by simpa using hmatch)]⟩
  · exact List.mem_append.mpr (Or.inr (by simp))

theorem setInput_preserve_body_mem (env : TypeEnv) (path : Str)
    (inT : GoType) {p : Param} (hloc : p.loc = str "body") :
    ∀ (op : Op), p ∈ op.parameters →
      p ∈ (setInput env op path inT).parameters := by
  simp only [setInput]
  generalize structFields env (indirect inT) = flds
  induction flds with
  | nil => intro op h; exact h
  | cons fld rest ih =>
    intro op h
    rw [List.foldl_cons]
    apply ih
    cases hc : classifyField (pathParams path) fld with
    | none => exact h
    | some q =>
      apply addParam_preserve_mem h
      right
      intro hcon
      rcases classifyField_loc hc with hq | hq <;>
        rw [hq] at hcon <;>
        exact absurd (hloc ▸ hcon.2) (by decide)

theorem bodyParam_mem_selOps (env : TypeEnv) (inT : GoType) :
    ∀ (sels : List Sel) (op : Op),
      (bodyParam (typeName env inT) (refDef (typeName env inT)) ∈ op.parameters ∨
        hasBodySel sels = true) →
      bodyParam (typeName env inT) (refDef (typeName env inT)) ∈
        (selOps env inT sels op).parameters := by
  intro sels
  induction sels with
  | nil =>
    intro op h
    rcases h with h | h
    · exact h
    · simp [hasBodySel] at h
  | cons sel rest ih =>
    intro op h
    unfold selOps at ih ⊢
    rw [List.foldl_cons]
    cases sel with
    | other =>
      apply ih
      rcases h with h | h
      · exact Or.inl h
      · exact Or.inr (by simpa [hasBodySel] using h)
    | rest m q =>
      simp only [selStep]
      by_cases hb : isBodyMethod (goToUpper m)
      · rw [if_pos hb]
        exact ih _ (Or.inl (addParam_mem_self _ _))
      · rw [if_neg hb]
        rcases h with h | h
        · exact ih _ (Or.inl (setInput_preserve_body_mem env q inT (by
            simp [bodyParam]) op h))
        · apply ih
          right
          simpa [hasBodySel, hb] using h

theorem slotOps_setSlot {pi : PathItem} {m : Str} {op o : Op}
    (h : o ∈ slotOps (setSlot pi m op)) : o = op ∨ o ∈ slotOps pi := by
  unfold setSlot at h
  split_ifs at h <;>
    simp only [slotOps, List.mem_append, Option.mem_toList,
      Option.toList_some, List.mem_singleton] at h ⊢ <;>
    tauto

theorem mem_opsAt_registerPaths :
    ∀ (sels : List Sel) (op : Op) (paths : List (Str × PathItem))
      (p : Str) (o : Op),
      o ∈ opsAt (registerPaths sels op paths) p →
      o = op ∨ o ∈ opsAt paths p := by
  intro sels
  induction sels with
  | nil => intro op paths p o h; exact Or.inr h
  | cons sel rest ih =>
    intro op paths p o h
    unfold registerPaths at ih h
    rw [List.foldl_cons] at h
    cases sel with
    | other => exact ih op paths p o h
    | rest m q =>
      rcases ih op _ p o h with h1 | h1
      · exact Or.inl h1
      · by_cases hp : replacePath q = p
        · rw [← hp] at h1
          unfold opsAt at h1
          rw [lookupA_setA_self] at h1
          rcases slotOps_setSlot h1 with h2 | h2
          · exact Or.inl h2
          · right
            unfold opsAt
            rw [hp] at h2
            cases hl : lookupA paths p with
            | none =>
              rw [hl, Option.getD_none] at h2
              simp [slotOps] at h2
            | some pi' =>
              rw [hl, Option.getD_some] at h2
              exact h2
        · right
          unfold opsAt at h1 ⊢
          rw [lookupA_setA_ne _ _ hp] at h1
          exact h1

theorem peStep_parameters (env : TypeEnv) :
    ∀ (pes : List PossibleError) (m0 : List (Int × List Str)) (op : Op),
      ((pes.foldl (peStep env) (m0, op)).2).parameters = op.parameters := by
  intro pes
  induction pes with
  | nil => intro m0 op; rfl
  | cons pe rest ih =>
    intro m0 op
    rw [List.foldl_cons]
    rw [ih]
    rfl

/-- C7 counterexample: the operation registered under GET at `/b` for
a contract that also has a POST selector carries a request-body
parameter — Go shares one operation object across a contract's
selectors, so the body parameter added by the POST branch is visible
through the GET registration. -/
theorem c7_body_counterexample :
    ((addOperation 2 envC7 (newSwagger [] [] []) (str "svc") contractC7).bind
        (fun doc => (lookupA doc.paths (str "/b")).bind PathItem.get)).map
      hasBodyParam = some true := by
  decide

/-- C7 (amended): the final operation of a contract carries a
request-body parameter exactly when some REST selector's upper-cased
method is POST, PUT, or PATCH, and in that case it contains the body
parameter referencing the input type's definition; because the single
operation value is shared by every path registration of the contract,
an operation registered under GET or DELETE is body-parameter-free
only when the contract has no POST/PUT/PATCH selector, in which case
every newly registered operation of the contract carries no
request-body parameter. -/
theorem c7_request_body :
    (∀ (env : TypeEnv) (inT : GoType) (sels : List Sel) (op : Op),
      hasBodyParam (selOps env inT sels op) =
        (hasBodyParam op || hasBodySel sels)) ∧
    (∀ (env : TypeEnv) (inT : GoType) (sels : List Sel) (op : Op),
      hasBodySel sels = true →
      bodyParam (typeName env inT) (refDef (typeName env inT)) ∈
        (selOps env inT sels op).parameters) ∧
    (∀ (sels : List Sel) (op : Op) (paths : List (Str × PathItem))
       (p : Str) (o : Op),
      o ∈ opsAt (registerPaths sels op paths) p →
      o = op ∨ o ∈ opsAt paths p) ∧
    (∀ (fuel : Nat) (env : TypeEnv) (doc doc' : Doc) (sn : Str) (c : Contract),
      addOperation fuel env doc sn c = some doc' →
      hasBodySel c.selectors = false →
      ∀ (p : Str) (o : Op), o ∈ opsAt doc'.paths p →
        o ∈ opsAt doc.paths p ∨ hasBodyParam o = false) := by
  refine ⟨hasBodyParam_selOps, ?_, mem_opsAt_registerPaths, ?_⟩
  · intro env inT sels op h
    exact bodyParam_mem_selOps env inT sels op (Or.inr h)
  · intro fuel env doc doc' sn c hadd hsel p o hmem
    have hpaths : doc'.paths = registerPaths c.selectors
        (selOps env (indirect c.input) c.selectors
          (peOps env c.possibleErrors
            (initOp sn c.name (typeName env (indirect c.output)))))
        doc.paths := by
      simp only [addOperation] at hadd
      split at hadd
      · exact absurd hadd (by simp)
      · split at hadd
        · exact absurd hadd (by simp)
        · simp only [Option.some.injEq] at hadd
          rw [← hadd]
    rw [hpaths] at hmem
    rcases mem_opsAt_registerPaths c.selectors _ doc.paths p o hmem with h1 | h1
    · right
      rw [h1, hasBodyParam_selOps, hsel]
      have hpe : hasBodyParam (peOps env c.possibleErrors
          (initOp sn c.name (typeName env (indirect c.output)))) = false := by
        unfold hasBodyParam peOps
        rw [peStep_parameters]
        rfl
      rw [hpe]
      rfl
    · exact Or.inl h1

/-- Witness for C7's amended theorem: a single POST selector yields the
body parameter referencing the input type's definition. -/
theorem c7_request_body_witness :
    bodyParam (typeName envC7 (.structRef 0))
        (refDef (typeName envC7 (.structRef 0))) ∈
      (selOps envC7 (.structRef 0) [.rest (str "POST") (str "/a")]
        (initOp (str "s") (str "c") [])).parameters :=
  c7_request_body.2.1 envC7 (.structRef 0) [.rest (str "POST") (str "/a")]
    (initOp (str "s") (str "c") []) (by decide)

/-! ## C6: generator state across invocations -/

theorem addOperation_tags {fuel : Nat} {env : TypeEnv} {doc doc' : Doc}
    {sn : Str} {c : Contract}
    (hadd : addOperation fuel env doc sn c = some doc') :
    doc'.tags = doc.tags := by
  simp only [addOperation] at hadd
  split at hadd
  · exact absurd hadd (by simp)
  · split at hadd
    · exact absurd hadd (by simp)
    · simp only [Option.some.injEq] at hadd
      rw [← hadd]

theorem contractsFold_none (fuel : Nat) (env : TypeEnv) (sn : Str)
    (cs : List Contract) : contractsFold fuel env sn cs none = none := by
  unfold contractsFold
  induction cs with
  | nil => rfl
  | cons c rest ih => simpa using ih

theorem contractsFold_tags (fuel : Nat) (env : TypeEnv) (sn : Str) :
    ∀ (cs : List Contract) (doc0 d : Doc),
      contractsFold fuel env sn cs (some doc0) = some d →
      d.tags = doc0.tags := by
  intro cs
  induction cs with
  | nil =>
    intro doc0 d h
    simp only [contractsFold, List.foldl_nil, Option.some.injEq] at h
    rw [← h]
  | cons c rest ih =>
    intro doc0 d h
    unfold contractsFold at h ih
    rw [List.foldl_cons, Option.some_bind] at h
    cases hadd : addOperation fuel env doc0 sn c with
    | none =>
      rw [hadd] at h
      rw [show (List.foldl (fun acc c => acc.bind
          (fun doc => addOperation fuel env doc sn c)) none rest) =
          contractsFold fuel env sn rest none from rfl,
        contractsFold_none] at h
      exact absurd h (by simp)
    | some doc1 =>
      rw [hadd] at h
      rw [ih doc1 d h]
      exact addOperation_tags hadd

theorem assembleFold_none (fuel : Nat) (env : TypeEnv) :
    ∀ (ss : List Service),
      ss.foldl (fun acc s =>
        contractsFold fuel env s.name s.contracts
          (acc.map (fun doc => addTag doc s)))
        (none : Option Doc) = none := by
  intro ss
  induction ss with
  | nil => rfl
  | cons s rest ih =>
    rw [List.foldl_cons, Option.map_none', contractsFold_none]
    exact ih

theorem assembleDoc_tags (fuel : Nat) (env : TypeEnv) :
    ∀ (svcs : List Service) (doc : Doc) (d : Doc),
      assembleDoc fuel env doc svcs = some d →
      d.tags = doc.tags ++ svcs.map Service.name := by
  intro svcs
  induction svcs with
  | nil =>
    intro doc d h
    simp only [assembleDoc, List.foldl_nil, Option.some.injEq] at h
    rw [← h]
    simp
  | cons s rest ih =>
    intro doc d h
    unfold assembleDoc at h ih
    rw [List.foldl_cons, Option.map_some'] at h
    cases hfold : contractsFold fuel env s.name s.contracts
        (some (addTag doc s)) with
    | none =>
      rw [hfold] at h
      rw [assembleFold_none] at h
      exact absurd h (by simp)
    | some doc1 =>
      rw [hfold] at h
      rw [ih doc1 d h]
      rw [contractsFold_tags fuel env s.name s.contracts (addTag doc s) doc1 hfold]
      simp [addTag]

/-- C6 counterexample: one service with no contracts, generated twice
through the same generator state: the documents after the first and
second invocation differ (the tag list is appended to again), so the
two invocations do not produce identical output documents. -/
theorem c6_counterexample :
    ((assembleDoc 1 [] (newSwagger [] [] []) [⟨str "s", []⟩]).bind
      (fun d1 => (assembleDoc 1 [] d1 [⟨str "s", []⟩]).map
        (fun d2 => decide (d1 = d2)))) = some false := by
  decide

/-- C6 (amended): `WriteTo` mutates the document held (by pointer)
inside the generator, so state persists across invocations: after any
run the document's tag list is the previous tag list extended by the
service names, and for a non-empty service list a second identical
invocation yields a different document than the first (duplicate
tags).  Runs are independent and repeatable only when a fresh
generator (fresh document) is created per invocation. -/
theorem c6_generator_state :
    (∀ (fuel : Nat) (env : TypeEnv) (doc : Doc) (svcs : List Service) (d : Doc),
      assembleDoc fuel env doc svcs = some d →
      d.tags = doc.tags ++ svcs.map Service.name) ∧
    (∀ (fuel : Nat) (env : TypeEnv) (doc : Doc) (svcs : List Service)
       (d1 d2 : Doc),
      svcs ≠ [] →
      assembleDoc fuel env doc svcs = some d1 →
      assembleDoc fuel env d1 svcs = some d2 →
      d1 ≠ d2) := by
  refine ⟨fun fuel env doc svcs d h => assembleDoc_tags fuel env svcs doc d h, ?_⟩
  intro fuel env doc svcs d1 d2 hne h1 h2 heq
  have t2 := assembleDoc_tags fuel env svcs d1 d2 h2
  have hts : d1.tags = d2.tags := congrArg Doc.tags heq
  rw [← hts] at t2
  have := congrArg List.length t2
  simp only [List.length_append, List.length_map] at this
  have hlen : svcs.length ≠ 0 := fun hh => hne (List.length_eq_zero.mp hh)
  omega

/-- Witness for C6's amended theorem at a concrete repeated run. -/
theorem c6_generator_state_witness :
    ({ newSwagger [] [] [] with tags := [str "s"] } : Doc) ≠
      { newSwagger [] [] [] with tags := [str "s", str "s"] } :=
  c6_generator_state.2 1 [] (newSwagger [] [] []) [⟨str "s", []⟩]
    { newSwagger [] [] [] with tags := [str "s"] }
    { newSwagger [] [] [] with tags := [str "s", str "s"] }
    (by decide) (by decide) (by decide)

/-! ## C5: failure modes of the generation entry points -/

/-- C5: the per-service/per-contract processing is a pure total
function into a document (no error channel), so a failing run of
`WriteTo` can only fail at the terminal encode/write step: an error is
either the marshal error or the write error on the marshalled bytes;
every payload ever handed to the destination is the encoding of the
fully assembled document (so nothing partial is persisted — on marshal
failure the write trace is empty); and a `WriteToFile` whose
destination cannot be created fails with that error before any write. -/
theorem c5_failure_modes {ε β : Type} :
    (∀ (fuel : Nat) (env : TypeEnv) (marshal : Doc → Except ε β)
       (write : β → Except ε Unit) (doc0 : Doc) (svcs : List Service)
       (e : ε) (tr : List β),
      writeToRun fuel env marshal write doc0 svcs = (some (.error e), tr) →
      ∃ doc, assembleDoc fuel env doc0 svcs = some doc ∧
        (marshal doc = .error e ∨
          ∃ bs, marshal doc = .ok bs ∧ write bs = .error e)) ∧
    (∀ (fuel : Nat) (env : TypeEnv) (marshal : Doc → Except ε β)
       (write : β → Except ε Unit) (doc0 : Doc) (svcs : List Service)
       (b : β),
      b ∈ (writeToRun fuel env marshal write doc0 svcs).2 →
      ∃ doc, assembleDoc fuel env doc0 svcs = some doc ∧ marshal doc = .ok b) ∧
    (∀ (fuel : Nat) (env : TypeEnv) (create : Except ε Unit)
       (marshal : Doc → Except ε β) (write : β → Except ε Unit)
       (doc0 : Doc) (svcs : List Service) (b : β),
      b ∈ (writeToFileRun fuel env create marshal write doc0 svcs).2 →
      ∃ doc, assembleDoc fuel env doc0 svcs = some doc ∧ marshal doc = .ok b) ∧
    (∀ (fuel : Nat) (env : TypeEnv)
       (marshal : Doc → Except ε β) (write : β → Except ε Unit)
       (doc0 : Doc) (svcs : List Service) (e : ε),
      writeToFileRun fuel env (.error e) marshal write doc0 svcs =
        (some (.error e), [])) := by
  have hrun2 : ∀ (fuel : Nat) (env : TypeEnv) (marshal : Doc → Except ε β)
      (write : β → Except ε Unit) (doc0 : Doc) (svcs : List Service) (b : β),
      b ∈ (writeToRun fuel env marshal write doc0 svcs).2 →
      ∃ doc, assembleDoc fuel env doc0 svcs = some doc ∧ marshal doc = .ok b := by
    intro fuel env marshal write doc0 svcs b h
    unfold writeToRun at h
    split at h
    · simp at h
    · next doc ha =>
      split at h
      · simp at h
      · next bs hm =>
        simp only [List.mem_singleton] at h
        exact ⟨doc, ha, by rw [hm, h]⟩
  refine ⟨?_, hrun2, ?_, ?_⟩
  · intro fuel env marshal write doc0 svcs e tr h
    unfold writeToRun at h
    split at h
    · simp at h
    · next doc ha =>
      split at h
      · next e1 hm =>
        simp only [Prod.mk.injEq, Option.some.injEq, Except.error.injEq] at h
        exact ⟨doc, ha, Or.inl (by rw [hm, h.1])⟩
      · next bs hm =>
        simp only [Prod.mk.injEq, Option.some.injEq] at h
        exact ⟨doc, ha, Or.inr ⟨bs, hm, h.1⟩⟩
  · intro fuel env create marshal write doc0 svcs b h
    unfold writeToFileRun at h
    cases create with
    | error e => simp at h
    | ok u => exact hrun2 fuel env marshal write doc0 svcs b h
  · intro fuel env marshal write doc0 svcs e
    rfl

/-- Witness for C5: a marshal that always fails makes the run fail with
exactly that error and an empty write trace. -/
theorem c5_failure_modes_witness :
    ∃ doc, assembleDoc 1 [] (newSwagger [] [] []) [] = some doc ∧
      ((fun (_ : Doc) => (Except.error () : Except Unit Unit)) doc = .error () ∨
        ∃ bs, (fun (_ : Doc) => (Except.error () : Except Unit Unit)) doc = .ok bs ∧
          (fun (_ : Unit) => (Except.ok () : Except Unit Unit)) bs = .error ()) :=
  c5_failure_modes.1 1 [] (fun _ => .error ()) (fun _ => .ok ())
    (newSwagger [] [] []) [] () [] rfl

/-- Witness for C9: a segment with no colon prefix is preserved. -/
theorem c9_replacePath_witness :
    replaceSeg (str "abc") = str "abc" :=
  c9_replacePath.2.2.2.2 (str "abc") (by decide)

end Ronycontrib

